import Mathlib

/-!
Command-tree suggestion engine, registry assembly and alias validation of the `jf` command line

A shallow embedding of `searchSimilarCmds`, `getCommands`, `ConvertEmbeddedPlugin`,
`generateTraceIdToken` and `execMain` with its `CommandNotFound` handler (src/main.go), of
`validateAliasesDuplication` (src/main_test.go) and of `splitAgentNameAndVersion`,
`summaryPrintError`, `CreateServerDetailsWithConfigOffer` and `OverrideFieldsIfSet`
(src/utils/cliutils/utils.go), followed by theorems about them.

Go strings are embedded as Lean `String`s (sequences of Unicode code points, that is,
valid UTF-8 text).  Slices are lists; a nil slice and an empty slice are both `[]`.
Integers that hold edit distances are natural numbers: command names and typed tokens
are far shorter than any machine-integer bound.  A Go `error` is its message, nil is `none`.
-/

namespace JfrogCli

/-! ## Data model -/

/-- A `cli.Flag`, through the two methods that the embedded code calls on it. -/
structure Flag where
  GetName : String := ""
  Str : String := ""

/-- The fields of `cli.Command` (package `github.com/urfave/cli`) that the embedded code
reads; a field left out of a descriptor has Go's zero value (an absent `Subcommands` is
written `[]`).  `commandNamePath` is the
library's unexported field: it is nil (here `[]`) on every descriptor a caller builds, and
the library fills it with `[parent, child]` only on the copies it hands to the
sub-application of a namespace. -/
structure Command where
  Name : String := ""
  ShortName : String := ""
  Aliases : List String := []
  Usage : String := ""
  UsageText : String := ""
  Category : String := ""
  Subcommands : List Command
  Flags : List Flag := []
  Hidden : Bool := false
  HelpName : String := ""
  commandNamePath : List String := []

/-- The method `Command.Names` of the library: the name, then the short name when it is not
empty, then the aliases. -/
def Command.Names (c : Command) : List String :=
  ([c.Name] ++ (if c.ShortName ≠ "" then [c.ShortName] else [])) ++ c.Aliases

/-- The method `Command.FullName` of the library: the name when `commandNamePath` is nil,
else the path joined with single spaces. -/
def Command.FullName (c : Command) : String :=
  if c.commandNamePath = [] then c.Name else " ".intercalate c.commandNamePath

/-! ## Library functions used by the embedded code -/

/-- Go `strings.Index` on code-point sequences: the position of the first occurrence of
`old` in the text, `none` when there is none (Go returns -1). -/
def stringsIndex (old : List Char) : List Char → Option Nat
  | [] => if old.isPrefixOf [] then some 0 else none
  | c :: t => if old.isPrefixOf (c :: t) then some 0 else (stringsIndex old t).map (· + 1)

/-- Go `strings.Replace s old new 1`: `s` itself when `old = new` or `old` does not occur,
else `s` with the first occurrence of `old` replaced by `new` (an empty `old` matches at the
start of `s`). -/
def stringsReplaceOne (s old new : String) : String :=
  if old = new then s
  else
    match stringsIndex old.data s.data with
    | none => s
    | some j => ⟨s.data.take j ++ new.data ++ s.data.drop (j + old.data.length)⟩

/-- One pass of the inner loop of `levenshtein.ComputeDistance` (package
`github.com/agnivade/levenshtein`) for the character `c` of the longer string: the first
list is what is left of the shorter string, the second the part of the previous row from
`x[j-1]` on, `prev` the entry just written; the result is the rest of the new row. -/
def rowStep (c : Char) : List Char → List Nat → Nat → List Nat
  | s :: s1, d :: u :: rest, prev =>
      prev :: rowStep c s1 (u :: rest)
        (if c ≠ s then min (min (d + 1) (prev + 1)) (u + 1) else d)
  | _, _, prev => [prev]

/-- The outer loop of `levenshtein.ComputeDistance`: `i` is the loop index (from 1), `x`
the row. -/
def rowLoop (s1 : List Char) : List Char → Nat → List Nat → List Nat
  | [], _, x => x
  | c :: s2, i, x => rowLoop s1 s2 (i + 1) (rowStep c s1 x i)

/-- The function `levenshtein.ComputeDistance`: the classic edit distance (insertion,
deletion, substitution of one character, each of cost 1), case-sensitive, computed as the
library does: the early exits for an empty argument and for equal arguments, then the
single-row dynamic programme over the code points with the shorter string along the row. -/
def ComputeDistance (a b : String) : Nat :=
  if a.data.length = 0 then b.data.length
  else if b.data.length = 0 then a.data.length
  else if a = b then 0
  else
    let s1 := if a.data.length > b.data.length then b.data else a.data
    let s2 := if a.data.length > b.data.length then a.data else b.data
    (rowLoop s1 s2 1 (List.range (s1.length + 1))).getD s1.length 0

/-- Go `sort.Strings`: ascending byte-wise order, which on valid UTF-8 text is the
lexicographic order of the code points. -/
def sortStrings (l : List String) : List String :=
  l.insertionSort (fun a b => a.data ≤ b.data)

/-! ## `searchSimilarCmds` (src/main.go) -/

/-- The loop `for _, subCmdName := range subCmd.Names()` with its early return: the first
name at distance 0 from `toCompare`. -/
def exactName (toCompare : String) : List String → Option String
  | [] => none
  | subCmdName :: rest =>
      if ComputeDistance subCmdName toCompare = 0 then some subCmdName
      else exactName toCompare rest

/-- The loop `for _, subCmd := range cmd.Subcommands` around `exactName`. -/
def exactSubcommand (toCompare : String) : List Command → Option String
  | [] => none
  | subCmd :: rest =>
      match exactName toCompare subCmd.Names with
      | some subCmdName => some subCmdName
      | none => exactSubcommand toCompare rest

/-- The body of the loop `for _, cmdName := range cmd.Names()`; the state is
`(minDistance, bestSimilarity)`. -/
def similarStep (cmd : Command) (toCompare : String) (st : Nat × List String)
    (cmdName : String) : Nat × List String :=
  let distance := ComputeDistance cmdName toCompare
  let best :=
    if distance = st.1 then st.2 ++ [stringsReplaceOne cmd.FullName cmd.Name cmdName]
    else st.2
  if distance < st.1 then (distance, [stringsReplaceOne cmd.FullName cmd.Name cmdName])
  else (st.1, best)

/-- The loop `for _, cmd := range cmds` of `searchSimilarCmds`, from the state
`(minDistance, bestSimilarity)`. -/
def searchLoop (toCompare : String) : List Command → Nat → List String → List String
  | [], _, bestSimilarity => bestSimilarity
  | cmd :: rest, minDistance, bestSimilarity =>
      match exactSubcommand toCompare cmd.Subcommands with
      | some subCmdName => [cmd.Name ++ " " ++ subCmdName]
      | none =>
          let st := cmd.Names.foldl (similarStep cmd toCompare) (minDistance, bestSimilarity)
          searchLoop toCompare rest st.1 st.2

/-- The function `searchSimilarCmds`: `minDistance` starts at 2, `bestSimilarity` nil. -/
def searchSimilarCmds (cmds : List Command) (toCompare : String) : List String :=
  searchLoop toCompare cmds 2 []

/-- The text that the `CommandNotFound` handler of `execMain` prints after the
not-a-command line: nothing for an empty result, else the sentence built from
`bestSimilarity` (more than one entry is sorted first). -/
def similarityText (bestSimilarity : List String) : Option String :=
  if bestSimilarity.length > 0 then
    some ("The most similar " ++
      (if bestSimilarity.length = 1 then "command is:\n\tjf " ++ bestSimilarity.headD ""
       else "commands are:\n\tjf " ++ "\n\tjf ".intercalate (sortStrings bestSimilarity)))
  else none

/-! ## `validateAliasesDuplication` (src/main_test.go) -/

/-- The loop `for _, aliasName := range subcommand.Aliases`; `seen` holds the keys of
`aliasesMap`.  An error is the logged diagnostic, after which the process exits. -/
def validateAliases (commandName subcommandName : String) :
    List String → List String → Except String (List String)
  | [], seen => .ok seen
  | aliasName :: rest, seen =>
      if aliasName ∈ seen then
        .error ("Duplicate Alias \x27" ++ aliasName ++ "\x27 Found on " ++ commandName ++ " " ++
          subcommandName ++ " command.")
      else validateAliases commandName subcommandName rest (aliasName :: seen)

/-- The loop `for _, subcommand := range subcommands`. -/
def validateSubcommands (commandName : String) :
    List Command → List String → Except String Unit
  | [], _ => .ok ()
  | subcommand :: rest, seen =>
      match validateAliases commandName subcommand.Name subcommand.Aliases seen with
      | .error e => .error e
      | .ok seen1 => validateSubcommands commandName rest seen1

/-- The function `validateAliasesDuplication` over the registry `cmds`: a fresh
`aliasesMap` for each command; `.ok ()` when it returns, `.error` with the diagnostic when
it terminates the process. -/
def validateAliasesDuplication : List Command → Except String Unit
  | [] => .ok ()
  | command :: rest =>
      match validateSubcommands command.Name command.Subcommands [] with
      | .error e => .error e
      | .ok _ => validateAliasesDuplication rest

/-! ## Vocabulary of the statements -/

/-- The top-level invocation names of a registry, in registry order and, within a command,
in `Names` order. -/
def topNames (cmds : List Command) : List String :=
  cmds.flatMap Command.Names

/-- The pairs of a top-level command and one of its invocation names, in the order in which
the similarity loop visits them. -/
def candidates (cmds : List Command) : List (Command × String) :=
  cmds.flatMap (fun c => c.Names.map (fun n => (c, n)))

/-- The suggestion string emitted when the command `p.1` is matched through its invocation
name `p.2`. -/
def suggestion (p : Command × String) : String :=
  stringsReplaceOne p.1.FullName p.1.Name p.2

/-- The value of `minDistance` when the loop of `searchSimilarCmds` ends without an exact
subcommand match: the least of 2 and the distances of the top-level invocation names. -/
def finalDistance (cmds : List Command) (tok : String) : Nat :=
  (candidates cmds).foldl (fun m p => min m (ComputeDistance p.2 tok)) 2

/-! ## Example registries -/

/-- A descriptor as a caller writes it: no short name, no command path. -/
def mkCommand (name : String) (aliases : List String) (subs : List Command) : Command :=
  { Name := name, Aliases := aliases, Subcommands := subs }

/-- The registry of the scenario: `artifactory` (alias `rt`) with the subcommand `upload`
(alias `u`), and `config` (alias `c`). -/
def scenarioRegistry : List Command :=
  [mkCommand "artifactory" ["rt"] [mkCommand "upload" ["u"] []],
   mkCommand "config" ["c"] []]

/-! ## Embedded plugins and `getCommands` (src/main.go) -/

/-- The constant `otherCategory`. -/
def otherCategory : String := "Other"

/-- The constant `commandNamespacesCategory`. -/
def commandNamespacesCategory : String := "Command Namespaces"

/-- The type `components.Namespace` of the plugin framework (package
`github.com/jfrog/jfrog-cli-core/v2/plugins/components`); the plugin's own command
descriptors are opaque here and stand as their names. -/
structure Namespace where
  Name : String := ""
  Description : String := ""
  Hidden : Bool := false
  Category : String := ""
  Commands : List String := []
  Subcommands : List Namespace

/-- The type `components.App` of the plugin framework. -/
structure App where
  Name : String := ""
  Description : String := ""
  Version : String := ""
  Commands : List String := []
  Subcommands : List Namespace := []

/-- A Go result `([]cli.Command, error)`; an error stands as its message, nil as `none`. -/
abbrev CommandsResult := List Command × Option String

/-- The body of the loop of `ConvertEmbeddedPlugin` at one index. -/
def normalizeCategory (ns : Namespace) : Namespace :=
  if ns.Category = "" then { ns with Category := otherCategory } else ns

/-- The plugin after the loop `for i := range jfrogPlugin.Subcommands`. -/
def normalizeApp (jfrogPlugin : App) : App :=
  { jfrogPlugin with Subcommands := jfrogPlugin.Subcommands.map normalizeCategory }

/-- The function `ConvertEmbeddedPlugin`; `convertAppCommands` is the framework's
`components.ConvertAppCommands`. -/
def ConvertEmbeddedPlugin (convertAppCommands : App → CommandsResult) (jfrogPlugin : App) :
    CommandsResult :=
  let jfrogPlugin := normalizeApp jfrogPlugin
  let (converted, err) := convertAppCommands jfrogPlugin
  match err with
  | some msg =>
      (converted, some ("failed adding \x27" ++ jfrogPlugin.Name ++
        "\x27 embedded plugin commands. Last error: " ++ msg))
  | none => (converted, none)

/-- What `getCommands` takes from outside src/main.go: the command names of package
`cliutils`, the command lists, texts and flags of the collaborator packages, and the
plugin framework's converter. -/
structure Collaborators where
  CmdArtifactory : String
  CmdMissionControl : String
  CmdDistribution : String
  CmdPipelines : String
  CmdCompletion : String
  CmdPlugin : String
  CmdConfig : String
  CmdProject : String
  CmdOptions : String
  artifactoryCommands : List Command
  missioncontrolCommands : List Command
  distributionCommands : List Command
  pipelinesCommands : List Command
  completionCommands : List Command
  pluginsCommands : List Command
  configCommands : List Command
  projectCommands : List Command
  cisetupDescription : String
  cisetupHelpName : String
  loginDescription : String
  loginHelpName : String
  aiDescription : String
  aiHelpName : String
  tokenDescription : String
  tokenHelpName : String
  tokenArguments : String
  setupFlags : List Flag
  introFlags : List Flag
  accessTokenCreateFlags : List Flag
  securityApp : App
  convertAppCommands : App → CommandsResult
  installedPlugins : List Command
  buildtoolsCommands : List Command
  lifecycleCommands : List Command
  buildToolsHelpCommands : List Command

/-- The slice literal `cliNameSpaces` of `getCommands`. -/
def cliNameSpaces (env : Collaborators) : List Command :=
  [ { Name := env.CmdArtifactory, Usage := "Artifactory commands.",
      Subcommands := env.artifactoryCommands, Category := commandNamespacesCategory },
    { Name := env.CmdMissionControl, Usage := "Mission Control commands.",
      Subcommands := env.missioncontrolCommands, Category := commandNamespacesCategory },
    { Name := env.CmdDistribution, Usage := "Distribution V1 commands.",
      Subcommands := env.distributionCommands, Category := commandNamespacesCategory },
    { Name := env.CmdPipelines, Usage := "Pipelines commands.",
      Subcommands := env.pipelinesCommands, Category := commandNamespacesCategory },
    { Name := env.CmdCompletion, Usage := "Generate autocomplete scripts.",
      Subcommands := env.completionCommands, Category := otherCategory },
    { Name := env.CmdPlugin, Usage := "Plugins handling commands.",
      Subcommands := env.pluginsCommands, Category := commandNamespacesCategory },
    { Name := env.CmdConfig, Aliases := ["c"], Usage := "Server configurations commands.",
      Subcommands := env.configCommands, Category := commandNamespacesCategory },
    { Name := env.CmdProject, Hidden := true, Usage := "Project commands.",
      Subcommands := env.projectCommands, Category := otherCategory },
    { Name := "ci-setup", Hidden := true, Usage := env.cisetupDescription,
      HelpName := env.cisetupHelpName, Category := otherCategory, Subcommands := [] },
    { Name := "setup", Hidden := true, Flags := env.setupFlags, Subcommands := [] },
    { Name := "intro", Hidden := true, Flags := env.introFlags, Subcommands := [] },
    { Name := env.CmdOptions, Usage := "Show all supported environment variables.",
      Category := otherCategory, Subcommands := [] },
    { Name := "login", Usage := env.loginDescription, HelpName := env.loginHelpName,
      Category := otherCategory, Subcommands := [] },
    { Hidden := true, Name := "how", Usage := env.aiDescription,
      HelpName := env.aiHelpName, Category := otherCategory, Subcommands := [] },
    { Name := "access-token-create", Aliases := ["atc"],
      Flags := env.accessTokenCreateFlags, Usage := env.tokenDescription,
      HelpName := env.tokenHelpName, UsageText := env.tokenArguments,
      Category := otherCategory, Subcommands := [] } ]

/-- The function `getCommands`. -/
def getCommands (env : Collaborators) : CommandsResult :=
  let (securityCmds, err) := ConvertEmbeddedPlugin env.convertAppCommands env.securityApp
  if err ≠ none then ([], err)
  else
    let allCommands := cliNameSpaces env ++ securityCmds
    let allCommands := allCommands ++ env.installedPlugins
    let allCommands := allCommands ++ env.buildtoolsCommands
    let allCommands := allCommands ++ env.lifecycleCommands
    (allCommands ++ env.buildToolsHelpCommands, none)

/-! ## `execMain` (src/main.go) -/

/-- The type `MyFlag`. -/
structure MyFlag where
  Name : String := ""
  Usage : String := ""

/-- The type `MyCommand`. -/
structure MyCommand where
  Name : String := ""
  ShortName : String := ""
  Description : String := ""
  Args : String := ""
  Usage : String := ""
  Subcommands : List MyCommand
  Flags : List MyFlag := []

/-- The function `CopyCommand`. -/
def CopyCommand (com1 : Command) : MyCommand :=
  { Name := com1.Name,
    ShortName := if com1.Aliases.length > 0 then com1.Aliases.headD "" else "",
    Usage := com1.HelpName,
    Description := com1.Usage,
    Args := com1.UsageText,
    Subcommands := [],
    Flags := com1.Flags.foldl
      (fun flags flag => flags ++ [{ Name := flag.GetName, Usage := flag.Str }]) [] }

/-- The innermost loop of `execMain`: the copies of the sub-subcommands that are not
hidden, appended to `mySub.Subcommands`. -/
def copySubSubcommands (sub : Command) : MyCommand :=
  sub.Subcommands.foldl
    (fun mySub subsub =>
      if subsub.Hidden then mySub
      else { mySub with Subcommands := mySub.Subcommands ++ [CopyCommand subsub] })
    (CopyCommand sub)

/-- The loop `for _, sub := range com.Subcommands` of `execMain`. -/
def copySubcommands (com : Command) : MyCommand :=
  com.Subcommands.foldl
    (fun myCom sub =>
      if sub.Hidden then myCom
      else { myCom with Subcommands := myCom.Subcommands ++ [copySubSubcommands sub] })
    (CopyCommand com)

/-- The statement `allCommands[key] = append(allCommands[key], myCom)` on a map held as a
list of keys with their values. -/
def mapAppend (allCommands : List (String × List MyCommand)) (key : String)
    (myCom : MyCommand) : List (String × List MyCommand) :=
  match allCommands with
  | [] => [(key, [myCom])]
  | (k, v) :: rest =>
      if k = key then (k, v ++ [myCom]) :: rest else (k, v) :: mapAppend rest key myCom

/-- The loop `for _, com := range commands` of `execMain`, which fills `allCommands`; `com`
is a copy of the slice element, so setting `com.Category` changes the map key only. -/
def listCommands (commands : List Command) : List (String × List MyCommand) :=
  commands.foldl
    (fun allCommands com =>
      if com.Hidden then allCommands
      else
        let myCom := copySubcommands com
        let com := if com.Category = "" then { com with Category := otherCategory } else com
        mapAppend allCommands com.Category myCom)
    []

/-- Go `sort.Slice(commands, less)` with `less` comparing `Name`: the names ascending in
byte-wise order.  The library does not fix the order of commands of equal name; this model
keeps their input order. -/
def sortByName (commands : List Command) : List Command :=
  commands.insertionSort (fun a b => a.Name.data ≤ b.Name.data)

/-- What a run of `execMain` leaves: the map `allCommands`, the list `app.Commands` and the
returned error. -/
structure MainRun where
  allCommands : List (String × List MyCommand)
  Commands : List Command
  err : Option String

/-- The function `execMain`; `appRun` is `app.Run(args)` as a function of the installed
command list.  The error of `getCommands` is assigned to `err` and not read before `err`
is assigned again. -/
def execMain (env : Collaborators) (appRun : List Command → Option String) : MainRun :=
  let (commands, _err) := getCommands env
  let allCommands := listCommands commands
  let commands := sortByName commands
  { allCommands := allCommands, Commands := commands, err := appRun commands }

/-! ## `splitAgentNameAndVersion` and `summaryPrintError` (src/utils/cliutils/utils.go) -/

/-- Go `strings.LastIndex` on code-point sequences: the position of the last occurrence of
`sep` in the text, `none` when there is none (Go returns -1). -/
def stringsLastIndex (sep : List Char) : List Char → Option Nat
  | [] => if sep.isPrefixOf [] then some 0 else none
  | c :: t =>
      match stringsLastIndex sep t with
      | some j => some (j + 1)
      | none => if sep.isPrefixOf (c :: t) then some 0 else none

/-- The function `splitAgentNameAndVersion`. -/
def splitAgentNameAndVersion (fullAgentName : String) : String × String :=
  match stringsLastIndex "/".data fullAgentName.data with
  | none => (fullAgentName, "")
  | some lastSlashIndex =>
      (⟨fullAgentName.data.take lastSlashIndex⟩,
       ⟨fullAgentName.data.drop (lastSlashIndex + 1)⟩)

/-- The function `summaryPrintError`: the returned error and the errors it logs; an error
stands as its message, nil as `none`. -/
def summaryPrintError (summaryError originalError : Option String) :
    Option String × List String :=
  match originalError with
  | some e =>
      (some e, match summaryError with
        | some s => [s]
        | none => [])
  | none => (summaryError, [])

/-- Collaborators that contribute no command, with a plugin converter that succeeds. -/
def bareCollaborators : Collaborators :=
  { CmdArtifactory := "rt", CmdMissionControl := "mc", CmdDistribution := "ds",
    CmdPipelines := "pl", CmdCompletion := "completion", CmdPlugin := "plugin",
    CmdConfig := "config", CmdProject := "project", CmdOptions := "options",
    artifactoryCommands := [], missioncontrolCommands := [], distributionCommands := [],
    pipelinesCommands := [], completionCommands := [], pluginsCommands := [],
    configCommands := [], projectCommands := [],
    cisetupDescription := "", cisetupHelpName := "", loginDescription := "",
    loginHelpName := "", aiDescription := "", aiHelpName := "", tokenDescription := "",
    tokenHelpName := "", tokenArguments := "",
    setupFlags := [], introFlags := [], accessTokenCreateFlags := [],
    securityApp := {}, convertAppCommands := fun _ => ([], none),
    installedPlugins := [], buildtoolsCommands := [], lifecycleCommands := [],
    buildToolsHelpCommands := [] }

/-- Collaborators whose embedded plugin `security` fails to convert, with the message
`boom`. -/
def failingCollaborators : Collaborators :=
  { bareCollaborators with
    securityApp := { Name := "security" },
    convertAppCommands := fun _ => ([], some "boom") }

/-- An embedded plugin with a namespace without category and one with a category. -/
def samplePlugin : App :=
  { Name := "security",
    Subcommands :=
      [ { Name := "audit", Subcommands := [ { Name := "deep", Subcommands := [] } ] },
        { Name := "scan", Category := "Security", Subcommands := [] } ] }

/-! ## Connection details from options or from the configuration (src/utils/cliutils/utils.go) -/

/-- The type `cli.Context`, through the methods the embedded code calls: `c.String`,
`c.Bool`, `c.Int` and `c.IsSet` of a flag name. -/
structure Context where
  stringFlag : String → String
  boolFlag : String → Bool
  intFlag : String → Int
  isSet : String → Bool

/-- The flag-name constants of package `cliutils` that `CreateServerDetailsFromFlags`
reads (they are declared outside src/). -/
structure FlagNames where
  url : String
  configRtUrl : String
  configDistUrl : String
  configXrUrl : String
  configMcUrl : String
  configPlUrl : String
  user : String
  password : String
  sshKeyPath : String
  sshPassphrase : String
  accessToken : String
  clientCertPath : String
  clientCertKeyPath : String
  serverId : String
  InsecureTls : String

/-- The fields of `config.ServerDetails` that the embedded code reads or writes. -/
structure ServerDetails where
  Url : String := ""
  ArtifactoryUrl : String := ""
  DistributionUrl : String := ""
  XrayUrl : String := ""
  MissionControlUrl : String := ""
  PipelinesUrl : String := ""
  User : String := ""
  Password : String := ""
  SshKeyPath : String := ""
  SshPassphrase : String := ""
  AccessToken : String := ""
  ClientCertPath : String := ""
  ClientCertKeyPath : String := ""
  ServerId : String := ""
  InsecureTls : Bool := false
  deriving DecidableEq

/-- A Go result `(*ServerDetails, error)`. -/
abbrev DetailsResult := Option ServerDetails × Option String

/-- The type `CommanDomain`, a string. -/
abbrev CommanDomain := String

/-- The constant `Rt`. -/
def Rt : CommanDomain := "rt"

/-- The constant `Ds`. -/
def Ds : CommanDomain := "ds"

/-- The constant `Xr`. -/
def Xr : CommanDomain := "xr"

/-- The function `clientutils.AddTrailingSlashIfNeeded` of the client library: a `/` is
added to a URL that is not empty and does not end in `/`. -/
def AddTrailingSlashIfNeeded (url : String) : String :=
  if url ≠ "" ∧ url.data.getLast? ≠ some '/' then url ++ "/" else url

/-- The function `CreateServerDetailsFromFlags`. -/
def CreateServerDetailsFromFlags (fn : FlagNames) (c : Context) : ServerDetails :=
  { Url := AddTrailingSlashIfNeeded (c.stringFlag fn.url),
    ArtifactoryUrl := AddTrailingSlashIfNeeded (c.stringFlag fn.configRtUrl),
    DistributionUrl := AddTrailingSlashIfNeeded (c.stringFlag fn.configDistUrl),
    XrayUrl := AddTrailingSlashIfNeeded (c.stringFlag fn.configXrUrl),
    MissionControlUrl := AddTrailingSlashIfNeeded (c.stringFlag fn.configMcUrl),
    PipelinesUrl := AddTrailingSlashIfNeeded (c.stringFlag fn.configPlUrl),
    User := c.stringFlag fn.user,
    Password := c.stringFlag fn.password,
    SshKeyPath := c.stringFlag fn.sshKeyPath,
    SshPassphrase := c.stringFlag fn.sshPassphrase,
    AccessToken := c.stringFlag fn.accessToken,
    ClientCertPath := c.stringFlag fn.clientCertPath,
    ClientCertKeyPath := c.stringFlag fn.clientCertKeyPath,
    ServerId := c.stringFlag fn.serverId,
    InsecureTls := c.boolFlag fn.InsecureTls }

/-- The function `createServerDetailsFromFlags` (lower case in the source). -/
def createServerDetailsFromFlagsOfDomain (fn : FlagNames) (c : Context)
    (domain : CommanDomain) : ServerDetails :=
  let details := CreateServerDetailsFromFlags fn c
  let details :=
    if domain = Rt then { details with ArtifactoryUrl := details.Url }
    else if domain = Xr then { details with XrayUrl := details.Url }
    else if domain = Ds then { details with DistributionUrl := details.Url }
    else details
  { details with Url := "" }

/-- The function `credentialsChanged`. -/
def credentialsChanged (details : ServerDetails) : Bool :=
  details.Url != "" || details.ArtifactoryUrl != "" || details.DistributionUrl != "" ||
    details.XrayUrl != "" || details.User != "" || details.Password != "" ||
    details.SshKeyPath != "" || details.SshPassphrase != "" || details.AccessToken != "" ||
    details.ClientCertKeyPath != "" || details.ClientCertPath != ""

/-- What `CreateServerDetailsWithConfigOffer` calls outside the embedded code:
`ShouldOfferConfig()` as its result, the interactive configuration command as the error of
`Config()` and the result of `ServerDetails()` for given default details, `GetConfig` of a
server id (non-nil details on success) and `CreateInitialRefreshableTokensIfNeeded`, which
may update the details it is given. -/
structure ConfigCollaborators where
  shouldOfferConfig : Bool × Option String
  configCommand : ServerDetails → Option String × DetailsResult
  getConfig : String → Bool → Except String ServerDetails
  createInitialRefreshableTokensIfNeeded : ServerDetails → ServerDetails × Option String

/-- The function `offerConfig`. -/
def offerConfig (env : ConfigCollaborators) (fn : FlagNames) (c : Context)
    (domain : CommanDomain) : DetailsResult :=
  let (confirmed, err) := env.shouldOfferConfig
  if !confirmed || err ≠ none then (none, err)
  else
    let details := createServerDetailsFromFlagsOfDomain fn c domain
    let (err, serverDetails) := env.configCommand details
    if err ≠ none then (none, err) else serverDetails

/-- The function `CreateServerDetailsWithConfigOffer`. -/
def CreateServerDetailsWithConfigOffer (env : ConfigCollaborators) (fn : FlagNames)
    (c : Context) (excludeRefreshableTokens : Bool) (domain : CommanDomain) : DetailsResult :=
  let (createdDetails, err) := offerConfig env fn c domain
  if err ≠ none then (none, err)
  else if createdDetails ≠ none then (createdDetails, err)
  else
    let details := createServerDetailsFromFlagsOfDomain fn c domain
    if credentialsChanged details then (some details, none)
    else
      match env.getConfig details.ServerId excludeRefreshableTokens with
      | .error e => (none, some e)
      | .ok confDetails =>
          let confDetails :=
            { confDetails with
              InsecureTls := details.InsecureTls,
              Url := AddTrailingSlashIfNeeded confDetails.Url,
              DistributionUrl := AddTrailingSlashIfNeeded confDetails.DistributionUrl }
          if !excludeRefreshableTokens then
            match env.createInitialRefreshableTokensIfNeeded confDetails with
            | (_, some e) => (none, some e)
            | (confDetails, none) => (some confDetails, none)
          else (some confDetails, none)

/-- The statement "a URL or a credential was passed as a command option", over the thirteen
options that the claim names. -/
def credentialOptionPassed (fn : FlagNames) (c : Context) : Prop :=
  c.stringFlag fn.url ≠ "" ∨ c.stringFlag fn.configRtUrl ≠ "" ∨
    c.stringFlag fn.configDistUrl ≠ "" ∨ c.stringFlag fn.configXrUrl ≠ "" ∨
    c.stringFlag fn.configMcUrl ≠ "" ∨ c.stringFlag fn.configPlUrl ≠ "" ∨
    c.stringFlag fn.user ≠ "" ∨ c.stringFlag fn.password ≠ "" ∨
    c.stringFlag fn.sshKeyPath ≠ "" ∨ c.stringFlag fn.sshPassphrase ≠ "" ∨
    c.stringFlag fn.accessToken ≠ "" ∨ c.stringFlag fn.clientCertPath ≠ "" ∨
    c.stringFlag fn.clientCertKeyPath ≠ ""

/-- Flag names for the examples. -/
def sampleFlagNames : FlagNames :=
  { url := "url", configRtUrl := "artifactory-url", configDistUrl := "distribution-url",
    configXrUrl := "xray-url", configMcUrl := "mission-control-url",
    configPlUrl := "pipelines-url", user := "user", password := "password",
    sshKeyPath := "ssh-key-path", sshPassphrase := "ssh-passphrase",
    accessToken := "access-token", clientCertPath := "client-cert-path",
    clientCertKeyPath := "client-cert-key-path", serverId := "server-id",
    InsecureTls := "insecure-tls" }

/-- A context in which exactly the string flag `name` is set, to `value`. -/
def contextWith (name value : String) : Context :=
  { stringFlag := fun n => if n = name then value else "",
    boolFlag := fun _ => false,
    intFlag := fun _ => 0,
    isSet := fun n => n = name }

/-- A stored configuration that is not asked to offer a configuration and holds one server,
`https://stored.example/`, for every server id. -/
def storedConfig : ConfigCollaborators :=
  { shouldOfferConfig := (false, none),
    configCommand := fun _ => (none, (none, none)),
    getConfig := fun _ _ => .ok { ArtifactoryUrl := "https://stored.example/", User := "stored" },
    createInitialRefreshableTokensIfNeeded := fun d => (d, none) }

/-! ## `generateTraceIdToken` (src/main.go) -/

/-- The digit of `hex.EncodeToString` for a value below 16. -/
def hexDigit (n : Nat) : Char :=
  "0123456789abcdef".data.getD n '0'

/-- Go `hex.EncodeToString`: two lower-case digits for each byte, the high half first. -/
def hexEncodeToString (buf : List (Fin 256)) : String :=
  ⟨buf.flatMap (fun b => [hexDigit (b.val / 16), hexDigit (b.val % 16)])⟩

/-- The function `generateTraceIdToken`; `randRead` is the outcome of `rand.Read` on the
buffer of 8 bytes: an error, or the 8 bytes that fill the buffer. -/
def generateTraceIdToken (randRead : Except String (Fin 8 → Fin 256)) : String × Option String :=
  match randRead with
  | .error err => ("", some err)
  | .ok bytes => (hexEncodeToString (List.ofFn bytes), none)

/-! ## `OverrideFieldsIfSet` (src/utils/cliutils/utils.go) -/

/-- The fields of `speccore.File` that `OverrideFieldsIfSet` may write, with `Aql`,
`Pattern` and `Target`, which it does not write. -/
structure File where
  Aql : String := ""
  Pattern : String := ""
  Target : String := ""
  Exclusions : List String := []
  SortBy : List String := []
  Offset : Int := 0
  Limit : Int := 0
  SortOrder : String := ""
  Props : String := ""
  TargetProps : String := ""
  ExcludeProps : String := ""
  Build : String := ""
  Project : String := ""
  ExcludeArtifacts : String := ""
  IncludeDeps : String := ""
  Bundle : String := ""
  Recursive : String := ""
  Flat : String := ""
  Explode : String := ""
  Regexp : String := ""
  IncludeDirs : String := ""
  ValidateSymlinks : String := ""
  Symlinks : String := ""
  Transitive : String := ""
  PublicGpgKey : String := ""
  deriving DecidableEq

/-- Go `strings.Split(s, sep)` for a separator of one character, on code-point
sequences: the pieces between the occurrences of the separator, one piece more than there
are occurrences. -/
def stringsSplit (sep : Char) : List Char → List (List Char)
  | [] => [[]]
  | c :: t =>
      if c = sep then [] :: stringsSplit sep t
      else
        match stringsSplit sep t with
        | piece :: rest => (c :: piece) :: rest
        | [] => [[c]]

/-- The function `overrideStringIfSet`, as the new value of the field. -/
def overrideStringIfSet (field : String) (c : Context) (fieldName : String) : String :=
  if c.isSet fieldName then c.stringFlag fieldName else field

/-- The function `overrideArrayIfSet`, as the new value of the field: the field is set to
nil and the pieces are appended one by one. -/
def overrideArrayIfSet (field : List String) (c : Context) (fieldName : String) :
    List String :=
  if c.isSet fieldName then
    ((stringsSplit ';' (c.stringFlag fieldName).data).map String.mk).foldl
      (fun field singleValue => field ++ [singleValue]) []
  else field

/-- The function `overrideIntIfSet`, as the new value of the field. -/
def overrideIntIfSet (field : Int) (c : Context) (fieldName : String) : Int :=
  if c.isSet fieldName then c.intFlag fieldName else field

/-- The function `OverrideFieldsIfSet`, as the new value of the spec. -/
def OverrideFieldsIfSet (spec : File) (c : Context) : File :=
  { spec with
    Exclusions := overrideArrayIfSet spec.Exclusions c "exclusions",
    SortBy := overrideArrayIfSet spec.SortBy c "sort-by",
    Offset := overrideIntIfSet spec.Offset c "offset",
    Limit := overrideIntIfSet spec.Limit c "limit",
    SortOrder := overrideStringIfSet spec.SortOrder c "sort-order",
    Props := overrideStringIfSet spec.Props c "props",
    TargetProps := overrideStringIfSet spec.TargetProps c "target-props",
    ExcludeProps := overrideStringIfSet spec.ExcludeProps c "exclude-props",
    Build := overrideStringIfSet spec.Build c "build",
    Project := overrideStringIfSet spec.Project c "project",
    ExcludeArtifacts := overrideStringIfSet spec.ExcludeArtifacts c "exclude-artifacts",
    IncludeDeps := overrideStringIfSet spec.IncludeDeps c "include-deps",
    Bundle := overrideStringIfSet spec.Bundle c "bundle",
    Recursive := overrideStringIfSet spec.Recursive c "recursive",
    Flat := overrideStringIfSet spec.Flat c "flat",
    Explode := overrideStringIfSet spec.Explode c "explode",
    Regexp := overrideStringIfSet spec.Regexp c "regexp",
    IncludeDirs := overrideStringIfSet spec.IncludeDirs c "include-dirs",
    ValidateSymlinks := overrideStringIfSet spec.ValidateSymlinks c "validate-symlinks",
    Symlinks := overrideStringIfSet spec.Symlinks c "symlinks",
    Transitive := overrideStringIfSet spec.Transitive c "transitive",
    PublicGpgKey := overrideStringIfSet spec.PublicGpgKey c "gpg-key" }

/-! ## More vocabulary of the statements -/

/-- A registry without its commands of depth 3: every direct subcommand of a top-level
command loses its own subcommands. -/
def withoutDepth3 (cmds : List Command) : List Command :=
  cmds.map (fun c =>
    { c with Subcommands := c.Subcommands.map (fun s => { s with Subcommands := [] }) })

/-- The map index expression `allCommands[key]`: nil for a key that is absent. -/
def mapLookup (allCommands : List (String × List MyCommand)) (key : String) :
    List MyCommand :=
  match allCommands with
  | [] => []
  | (k, v) :: rest => if k = key then v else mapLookup rest key

/-- The key under which the listing files a command: its category, `Other` for `""`. -/
def categoryKey (com : Command) : String :=
  if com.Category = "" then otherCategory else com.Category

/-- The diagnostic of the alias validator. -/
def duplicateAliasMessage (aliasName commandName subcommandName : String) : String :=
  "Duplicate Alias \x27" ++ aliasName ++ "\x27 Found on " ++ commandName ++ " " ++
    subcommandName ++ " command."

/-! ## The edit distance is 0 exactly on equal strings -/

theorem rowStep_zero (c : Char) (t : List Char) :
    ∀ (suf pre : List Char) (xs : List Nat) (prev : Nat),
      xs.length = suf.length + 1 →
      (∀ k, xs[k]? = some 0 → pre ++ suf.take k = t) →
      (prev = 0 → pre = t ++ [c]) →
      (rowStep c suf xs prev).length = suf.length + 1 ∧
        ∀ k, (rowStep c suf xs prev)[k]? = some 0 → pre ++ suf.take k = t ++ [c] := by
  intro suf
  induction suf with
  | nil =>
    intro pre xs prev hlen _ hprev
    match xs, hlen with
    | [d], _ =>
      refine ⟨by simp [rowStep], ?_⟩
      intro k hk
      cases k with
      | zero => simpa [rowStep] using hprev (by simpa [rowStep] using hk)
      | succ k => simp [rowStep] at hk
  | cons s suf ih =>
    intro pre xs prev hlen hxs hprev
    match xs, hlen with
    | d :: u :: rest, hlen =>
      have hl : (u :: rest).length = suf.length + 1 := by simpa using hlen
      have hx : ∀ k, (u :: rest)[k]? = some 0 → (pre ++ [s]) ++ suf.take k = t := by
        intro k hk
        have := hxs (k + 1) (by simpa using hk)
        simpa using this
      have hc : (if c ≠ s then min (min (d + 1) (prev + 1)) (u + 1) else d) = 0 →
          pre ++ [s] = t ++ [c] := by
        intro h0
        by_cases hcs : c = s
        · have hd : d = 0 := by simpa [hcs] using h0
          have := hxs 0 (by simp [hd])
          simp at this
          rw [this, hcs]
        · rw [if_pos hcs] at h0
          omega
      obtain ⟨ihl, ihz⟩ := ih (pre ++ [s]) (u :: rest) _ hl hx hc
      refine ⟨by rw [rowStep, List.length_cons, ihl, List.length_cons], ?_⟩
      intro k hk
      rw [rowStep] at hk
      cases k with
      | zero =>
        have hp : prev = 0 := by simpa using hk
        simpa using hprev hp
      | succ k =>
        rw [List.getElem?_cons_succ] at hk
        have := ihz k hk
        simpa using this

theorem rowLoop_zero (s1 : List Char) :
    ∀ (s2 t : List Char) (i : Nat) (x : List Nat),
      i ≠ 0 → x.length = s1.length + 1 →
      (∀ k, x[k]? = some 0 → s1.take k = t) →
      (rowLoop s1 s2 i x).length = s1.length + 1 ∧
        ∀ k, (rowLoop s1 s2 i x)[k]? = some 0 → s1.take k = t ++ s2 := by
  intro s2
  induction s2 with
  | nil =>
    intro t i x _ hlen hx
    exact ⟨by simpa [rowLoop] using hlen, by simpa [rowLoop] using hx⟩
  | cons c s2 ih =>
    intro t i x hi hlen hx
    obtain ⟨hl, hz⟩ := rowStep_zero c t s1 [] x i hlen (by simpa using hx)
      (fun h => absurd h hi)
    have := ih (t ++ [c]) (i + 1) (rowStep c s1 x i) (by omega) hl (by simpa using hz)
    simpa [rowLoop] using this

theorem ComputeDistance_self (a : String) : ComputeDistance a a = 0 := by
  unfold ComputeDistance
  by_cases h : a.data.length = 0
  · rw [if_pos h, h]
  · rw [if_neg h, if_neg h, if_pos rfl]

theorem ComputeDistance_eq_zero {a b : String} (h : ComputeDistance a b = 0) : a = b := by
  unfold ComputeDistance at h
  by_cases ha : a.data.length = 0
  · rw [if_pos ha] at h
    apply String.ext
    rw [List.length_eq_zero.mp ha, List.length_eq_zero.mp h]
  · rw [if_neg ha] at h
    by_cases hb : b.data.length = 0
    · rw [if_pos hb] at h
      exact absurd h ha
    · rw [if_neg hb] at h
      by_cases hab : a = b
      · exact hab
      · rw [if_neg hab] at h
        exfalso
        apply hab
        apply String.ext
        by_cases hgt : a.data.length > b.data.length
        · simp only [hgt, if_true] at h
          obtain ⟨hl, hz⟩ := rowLoop_zero b.data a.data [] 1 (List.range (b.data.length + 1))
            (by decide) (by simp) (by
              intro k hk
              rw [List.getElem?_eq_some_iff] at hk
              obtain ⟨hk1, hk2⟩ := hk
              simp at hk2
              simp [hk2])
          have h1 : (rowLoop b.data a.data 1 (List.range (b.data.length + 1)))[b.data.length]?
              = some 0 := by
            rw [List.getD_eq_getElem?_getD] at h
            rw [List.getElem?_eq_getElem (by omega)] at h ⊢
            simpa using h
          have := hz _ h1
          rw [List.take_length, List.nil_append] at this
          exact this.symm
        · simp only [hgt, if_false] at h
          obtain ⟨hl, hz⟩ := rowLoop_zero a.data b.data [] 1 (List.range (a.data.length + 1))
            (by decide) (by simp) (by
              intro k hk
              rw [List.getElem?_eq_some_iff] at hk
              obtain ⟨hk1, hk2⟩ := hk
              simp at hk2
              simp [hk2])
          have h1 : (rowLoop a.data b.data 1 (List.range (a.data.length + 1)))[a.data.length]?
              = some 0 := by
            rw [List.getD_eq_getElem?_getD] at h
            rw [List.getElem?_eq_getElem (by omega)] at h ⊢
            simpa using h
          have := hz _ h1
          rw [List.take_length, List.nil_append] at this
          exact this

theorem ComputeDistance_eq_zero_iff (a b : String) : ComputeDistance a b = 0 ↔ a = b :=
  ⟨ComputeDistance_eq_zero, fun h => h ▸ ComputeDistance_self a⟩


/-! ## The similarity loop as a filter -/

theorem foldl_min_le (tok : String) (l : List (Command × String)) (d : Nat) :
    l.foldl (fun m p => min m (ComputeDistance p.2 tok)) d ≤ d := by
  induction l generalizing d with
  | nil => simp
  | cons p l ih =>
    rw [List.foldl_cons]
    exact le_trans (ih _) (Nat.min_le_left _ _)

theorem foldl_min_le_mem (tok : String) (l : List (Command × String)) (d : Nat) :
    ∀ p ∈ l, l.foldl (fun m p => min m (ComputeDistance p.2 tok)) d ≤ ComputeDistance p.2 tok := by
  induction l generalizing d with
  | nil => simp
  | cons q l ih =>
    intro p hp
    rw [List.foldl_cons]
    rcases List.mem_cons.mp hp with rfl | hp
    · exact le_trans (foldl_min_le tok l _) (Nat.min_le_right _ _)
    · exact ih _ p hp

theorem foldl_min_attained (tok : String) (l : List (Command × String)) (d : Nat) :
    l.foldl (fun m p => min m (ComputeDistance p.2 tok)) d = d ∨
      ∃ p ∈ l, ComputeDistance p.2 tok = l.foldl (fun m p => min m (ComputeDistance p.2 tok)) d := by
  induction l generalizing d with
  | nil => simp
  | cons q l ih =>
    rw [List.foldl_cons]
    rcases ih (min d (ComputeDistance q.2 tok)) with h | ⟨p, hp, h⟩
    · rcases Nat.le_total d (ComputeDistance q.2 tok) with hle | hle
      · left; rw [h]; exact Nat.min_eq_left hle
      · right; exact ⟨q, List.mem_cons_self _ _, by rw [h]; exact (Nat.min_eq_right hle).symm⟩
    · right; exact ⟨p, List.mem_cons_of_mem _ hp, h⟩

theorem foldl_min_eq (tok : String) (l : List (Command × String)) (d m : Nat)
    (hd : m ≤ d) (hl : ∀ p ∈ l, m ≤ ComputeDistance p.2 tok)
    (hex : m = d ∨ ∃ p ∈ l, ComputeDistance p.2 tok = m) :
    l.foldl (fun m p => min m (ComputeDistance p.2 tok)) d = m := by
  apply le_antisymm
  · rcases hex with rfl | ⟨p, hp, rfl⟩
    · exact foldl_min_le tok l _
    · exact foldl_min_le_mem tok l d p hp
  · rcases foldl_min_attained tok l d with h | ⟨p, hp, h⟩
    · rw [h]; exact hd
    · rw [← h]; exact hl p hp

/-- The similarity loop over a list of (command, name) pairs: the final `minDistance` is the
least of the start value and the distances, and `bestSimilarity` is the start value (dropped
when a strictly smaller distance was met) followed by the suggestions of the pairs at the
final distance, in order. -/
theorem foldl_similarStep (tok : String) (l : List (Command × String)) :
    ∀ (d : Nat) (best : List String),
      l.foldl (fun st p => similarStep p.1 tok st p.2) (d, best) =
        (l.foldl (fun m p => min m (ComputeDistance p.2 tok)) d,
         (if l.foldl (fun m p => min m (ComputeDistance p.2 tok)) d < d then [] else best) ++
           (l.filter (fun p => ComputeDistance p.2 tok =
              l.foldl (fun m p => min m (ComputeDistance p.2 tok)) d)).map suggestion) := by
  induction l with
  | nil => intro d best; simp
  | cons q l ih =>
    intro d best
    have hM := foldl_min_le tok l (min d (ComputeDistance q.2 tok))
    rw [List.foldl_cons, List.foldl_cons]
    rcases Nat.lt_trichotomy (ComputeDistance q.2 tok) d with hlt | heq | hgt
    · have hstep : similarStep q.1 tok (d, best) q.2 =
          (min d (ComputeDistance q.2 tok), [suggestion q]) := by
        simp [similarStep, hlt, suggestion, Nat.min_eq_right (Nat.le_of_lt hlt)]
      rw [hstep, ih]
      rw [Nat.min_eq_right (Nat.le_of_lt hlt)] at hM ⊢
      congr 1
      by_cases hs : l.foldl (fun m p => min m (ComputeDistance p.2 tok)) (ComputeDistance q.2 tok)
          < ComputeDistance q.2 tok
      · have h1 : l.foldl (fun m p => min m (ComputeDistance p.2 tok)) (ComputeDistance q.2 tok)
            < d := by omega
        have h2 : ¬ ComputeDistance q.2 tok =
            l.foldl (fun m p => min m (ComputeDistance p.2 tok)) (ComputeDistance q.2 tok) := by
          omega
        simp [hs, h1, h2, List.filter_cons]
      · have h0 : l.foldl (fun m p => min m (ComputeDistance p.2 tok)) (ComputeDistance q.2 tok)
            = ComputeDistance q.2 tok := by omega
        simp [h0, hlt, List.filter_cons]
    · have hstep : similarStep q.1 tok (d, best) q.2 =
          (min d (ComputeDistance q.2 tok), best ++ [suggestion q]) := by
        simp [similarStep, heq, suggestion]
      rw [hstep, ih]
      rw [heq, Nat.min_self] at hM ⊢
      congr 1
      by_cases hs : l.foldl (fun m p => min m (ComputeDistance p.2 tok)) d < d
      · have h2 : ¬ d = l.foldl (fun m p => min m (ComputeDistance p.2 tok)) d := by omega
        simp [hs, h2, List.filter_cons, heq]
      · have h0 : l.foldl (fun m p => min m (ComputeDistance p.2 tok)) d = d := by omega
        simp [h0, List.filter_cons, heq]
    · have hstep : similarStep q.1 tok (d, best) q.2 =
          (min d (ComputeDistance q.2 tok), best) := by
        have h1 : ¬ ComputeDistance q.2 tok < d := by omega
        have h2 : ¬ ComputeDistance q.2 tok = d := by omega
        simp [similarStep, h1, h2, Nat.min_eq_left (Nat.le_of_lt hgt)]
      rw [hstep, ih]
      rw [Nat.min_eq_left (Nat.le_of_lt hgt)] at hM ⊢
      congr 1
      have h2 : ¬ ComputeDistance q.2 tok =
          l.foldl (fun m p => min m (ComputeDistance p.2 tok)) d := by omega
      simp [h2, List.filter_cons]

/-! ## The exact-match scan of the subcommands -/

theorem exactName_eq_none (tok : String) (names : List String) :
    exactName tok names = none ↔ tok ∉ names := by
  induction names with
  | nil => simp [exactName]
  | cons n names ih =>
    rw [exactName]
    by_cases h : ComputeDistance n tok = 0
    · have := ComputeDistance_eq_zero h
      rw [if_pos h]
      simp [this]
    · have hne : ¬ tok = n := fun e => h (e ▸ ComputeDistance_self tok)
      simp [h, ih, hne]

theorem exactName_eq_some (tok : String) (names : List String) (n : String)
    (h : exactName tok names = some n) : n = tok ∧ tok ∈ names := by
  induction names with
  | nil => simp [exactName] at h
  | cons m names ih =>
    rw [exactName] at h
    by_cases hd : ComputeDistance m tok = 0
    · rw [if_pos hd] at h
      have hm := ComputeDistance_eq_zero hd
      have : m = n := by simpa using h
      exact ⟨this ▸ hm, by simp [hm]⟩
    · rw [if_neg hd] at h
      exact ⟨(ih h).1, List.mem_cons_of_mem _ (ih h).2⟩

theorem exactSubcommand_eq_none (tok : String) (subs : List Command) :
    exactSubcommand tok subs = none ↔ ∀ s ∈ subs, tok ∉ s.Names := by
  induction subs with
  | nil => simp [exactSubcommand]
  | cons s subs ih =>
    rw [exactSubcommand]
    cases hn : exactName tok s.Names with
    | none =>
      have := (exactName_eq_none tok s.Names).mp hn
      simp [ih, this]
    | some n =>
      have := (exactName_eq_some tok s.Names n hn).2
      simp [this]

theorem exactSubcommand_eq_some (tok : String) (subs : List Command) (n : String)
    (h : exactSubcommand tok subs = some n) : n = tok ∧ ∃ s ∈ subs, tok ∈ s.Names := by
  induction subs with
  | nil => simp [exactSubcommand] at h
  | cons s subs ih =>
    rw [exactSubcommand] at h
    cases hn : exactName tok s.Names with
    | none =>
      rw [hn] at h
      obtain ⟨h1, t, ht, h2⟩ := ih h
      exact ⟨h1, t, List.mem_cons_of_mem _ ht, h2⟩
    | some m =>
      rw [hn] at h
      have hm := exactName_eq_some tok s.Names m hn
      have : m = n := by simpa using h
      exact ⟨this ▸ hm.1, s, List.mem_cons_self _ _, hm.2⟩

theorem exactSubcommand_of_mem (tok : String) (subs : List Command)
    (h : ∃ s ∈ subs, tok ∈ s.Names) : exactSubcommand tok subs = some tok := by
  cases hn : exactSubcommand tok subs with
  | none =>
    obtain ⟨s, hs, hmem⟩ := h
    exact absurd hmem ((exactSubcommand_eq_none tok subs).mp hn s hs)
  | some n => rw [(exactSubcommand_eq_some tok subs n hn).1]

/-! ## The loop over the top-level commands -/

/-- Without an exact subcommand match the loop is the similarity scan of the candidates. -/
theorem searchLoop_no_exact (tok : String) (cmds : List Command) :
    ∀ (d : Nat) (best : List String),
      (∀ c ∈ cmds, ∀ s ∈ c.Subcommands, tok ∉ s.Names) →
      searchLoop tok cmds d best =
        ((candidates cmds).foldl (fun st p => similarStep p.1 tok st p.2) (d, best)).2 := by
  induction cmds with
  | nil => intro d best _; simp [searchLoop, candidates]
  | cons c cmds ih =>
    intro d best h
    have hc := (exactSubcommand_eq_none tok c.Subcommands).mpr (h c (List.mem_cons_self _ _))
    rw [searchLoop, hc]
    simp only
    rw [ih _ _ (fun c' hc' => h c' (List.mem_cons_of_mem _ hc'))]
    simp only [candidates, List.flatMap_cons, List.foldl_append, List.foldl_map]

/-- The first top-level command with a direct subcommand invoked by the token decides the
result, whatever the state of the similarity scan. -/
theorem searchLoop_exact (tok : String) (pre : List Command) (c : Command)
    (post : List Command) :
    ∀ (d : Nat) (best : List String),
      (∀ c' ∈ pre, ∀ s ∈ c'.Subcommands, tok ∉ s.Names) →
      (∃ s ∈ c.Subcommands, tok ∈ s.Names) →
      searchLoop tok (pre ++ c :: post) d best = [c.Name ++ " " ++ tok] := by
  induction pre with
  | nil =>
    intro d best _ h
    rw [List.nil_append, searchLoop, exactSubcommand_of_mem tok c.Subcommands h]
  | cons p pre ih =>
    intro d best hpre h
    have hp := (exactSubcommand_eq_none tok p.Subcommands).mpr (hpre p (List.mem_cons_self _ _))
    rw [List.cons_append, searchLoop, hp]
    exact ih _ _ (fun c' hc' => hpre c' (List.mem_cons_of_mem _ hc')) h

/-- A list in which some element satisfies `P` splits at the first such element. -/
theorem exists_first_split {α : Type} (P : α → Prop) (l : List α) (h : ∃ x ∈ l, P x) :
    ∃ pre x post, l = pre ++ x :: post ∧ (∀ y ∈ pre, ¬ P y) ∧ P x := by
  induction l with
  | nil => simp at h
  | cons a l ih =>
    by_cases ha : P a
    · exact ⟨[], a, l, rfl, by simp, ha⟩
    · have : ∃ x ∈ l, P x := by
        obtain ⟨x, hx, hpx⟩ := h
        rcases List.mem_cons.mp hx with rfl | hx
        · exact absurd hpx ha
        · exact ⟨x, hx, hpx⟩
      obtain ⟨pre, x, post, hl, hpre, hx⟩ := ih this
      refine ⟨a :: pre, x, post, by rw [hl]; rfl, ?_, hx⟩
      intro y hy
      rcases List.mem_cons.mp hy with rfl | hy
      · exact ha
      · exact hpre y hy

/-! ## The suggestion string of a top-level command -/

theorem stringsIndex_self (s : List Char) : stringsIndex s s = some 0 := by
  cases s with
  | nil => simp [stringsIndex]
  | cons c t => simp [stringsIndex]

theorem stringsReplaceOne_self (old new : String) : stringsReplaceOne old old new = new := by
  unfold stringsReplaceOne
  by_cases h : old = new
  · rw [if_pos h, h]
  · rw [if_neg h, stringsIndex_self]
    show (⟨List.take 0 old.data ++ new.data ++ List.drop (0 + old.data.length) old.data⟩ : String)
      = new
    rw [List.take_zero, List.nil_append, Nat.zero_add, List.drop_length, List.append_nil]

/-- For a command without a command path the suggestion is the matched name itself. -/
theorem suggestion_of_topLevel (c : Command) (n : String) (h : c.commandNamePath = []) :
    suggestion (c, n) = n := by
  simp [suggestion, Command.FullName, h, stringsReplaceOne_self]

theorem map_suggestion_candidates (f : String → Bool) (cmds : List Command)
    (h : ∀ c ∈ cmds, c.commandNamePath = []) :
    ((candidates cmds).filter (fun p => f p.2)).map suggestion = (topNames cmds).filter f := by
  induction cmds with
  | nil => simp [candidates, topNames]
  | cons c cmds ih =>
    have hc := h c (List.mem_cons_self _ _)
    have ih1 := ih (fun c' hc' => h c' (List.mem_cons_of_mem _ hc'))
    simp only [candidates, topNames, List.flatMap_cons, List.filter_append, List.map_append]
      at ih1 ⊢
    rw [ih1]
    congr 1
    generalize c.Names = ns
    induction ns with
    | nil => simp
    | cons n ns ihn =>
      by_cases hf : f n = true
      · simp [List.filter_cons, hf, ihn, suggestion_of_topLevel c n hc]
      · simp [List.filter_cons, hf, ihn]

/-! ## `searchSimilarCmds` without an exact subcommand match -/

theorem mem_candidates (cmds : List Command) (p : Command × String) :
    p ∈ candidates cmds ↔ p.1 ∈ cmds ∧ p.2 ∈ p.1.Names := by
  obtain ⟨c, n⟩ := p
  simp only [candidates, List.mem_flatMap, List.mem_map, Prod.mk.injEq]
  constructor
  · rintro ⟨a, ha, k, hk, rfl, rfl⟩
    exact ⟨ha, hk⟩
  · rintro ⟨hc, hn⟩
    exact ⟨c, hc, n, hn, rfl, rfl⟩

theorem mem_topNames (cmds : List Command) (n : String) :
    n ∈ topNames cmds ↔ ∃ c ∈ cmds, n ∈ c.Names := by
  simp [topNames, List.mem_flatMap]

theorem snd_mem_topNames (cmds : List Command) (p : Command × String)
    (h : p ∈ candidates cmds) : p.2 ∈ topNames cmds :=
  (mem_topNames cmds p.2).mpr ⟨p.1, ((mem_candidates cmds p).mp h).1,
    ((mem_candidates cmds p).mp h).2⟩

theorem searchSimilarCmds_eq_filter (cmds : List Command) (tok : String)
    (hsub : ∀ c ∈ cmds, ∀ s ∈ c.Subcommands, tok ∉ s.Names) :
    searchSimilarCmds cmds tok =
      ((candidates cmds).filter
        (fun p => ComputeDistance p.2 tok = finalDistance cmds tok)).map suggestion := by
  rw [searchSimilarCmds, searchLoop_no_exact tok cmds 2 [] hsub, foldl_similarStep]
  simp [finalDistance]

theorem finalDistance_le (cmds : List Command) (tok : String) : finalDistance cmds tok ≤ 2 :=
  foldl_min_le tok (candidates cmds) 2

theorem finalDistance_eq (cmds : List Command) (tok : String) (m : Nat) (hm : m ≤ 2)
    (hmin : ∀ n ∈ topNames cmds, m ≤ ComputeDistance n tok)
    (hatt : m = 2 ∨ ∃ n ∈ topNames cmds, ComputeDistance n tok = m) :
    finalDistance cmds tok = m := by
  apply foldl_min_eq tok (candidates cmds) 2 m hm
  · intro p hp
    exact hmin p.2 (snd_mem_topNames cmds p hp)
  · rcases hatt with h | ⟨n, hn, hd⟩
    · exact Or.inl h
    · obtain ⟨c, hc, hcn⟩ := (mem_topNames cmds n).mp hn
      exact Or.inr ⟨(c, n), (mem_candidates cmds (c, n)).mpr ⟨hc, hcn⟩, hd⟩

theorem searchSimilarCmds_eq_names (cmds : List Command) (tok : String) (m : Nat)
    (hreg : ∀ c ∈ cmds, c.commandNamePath = [])
    (hsub : ∀ c ∈ cmds, ∀ s ∈ c.Subcommands, tok ∉ s.Names)
    (hm : m ≤ 2)
    (hmin : ∀ n ∈ topNames cmds, m ≤ ComputeDistance n tok)
    (hatt : m = 2 ∨ ∃ n ∈ topNames cmds, ComputeDistance n tok = m) :
    searchSimilarCmds cmds tok =
      (topNames cmds).filter (fun n => ComputeDistance n tok = m) := by
  rw [searchSimilarCmds_eq_filter cmds tok hsub, finalDistance_eq cmds tok m hm hmin hatt]
  exact map_suggestion_candidates (fun n => decide (ComputeDistance n tok = m)) cmds hreg

/-- An exact subcommand match gives one entry, for a command that has such a subcommand. -/
theorem searchSimilarCmds_exact_single_aux (cmds : List Command) (tok : String)
    (h : ∃ c ∈ cmds, ∃ s ∈ c.Subcommands, tok ∈ s.Names) :
    ∃ c ∈ cmds, (∃ s ∈ c.Subcommands, tok ∈ s.Names) ∧
      searchSimilarCmds cmds tok = [c.Name ++ " " ++ tok] := by
  obtain ⟨pre, c, post, hl, hpre, hc⟩ :=
    exists_first_split (fun c => ∃ s ∈ c.Subcommands, tok ∈ s.Names) cmds h
  refine ⟨c, by rw [hl]; simp, hc, ?_⟩
  rw [hl]
  apply searchLoop_exact tok pre c post 2 [] _ hc
  intro c' hc' s hs hmem
  exact hpre c' hc' ⟨s, hs, hmem⟩

/-! ## The alias validator as a duplicate check -/

theorem validateAliases_ok (cn sn : String) (as : List String) :
    ∀ (seen out : List String),
      validateAliases cn sn as seen = .ok out ↔
        out = as.reverse ++ seen ∧ as.Nodup ∧ ∀ a ∈ as, a ∉ seen := by
  induction as with
  | nil => intro seen out; simp [validateAliases, eq_comm]
  | cons a as ih =>
    intro seen out
    rw [validateAliases]
    by_cases h : a ∈ seen
    · simp [h]
    · rw [if_neg h, ih]
      simp only [List.reverse_cons, List.append_assoc, List.singleton_append, List.nodup_cons,
        List.mem_cons, forall_eq_or_imp]
      constructor
      · rintro ⟨rfl, hnd, hdis⟩
        refine ⟨rfl, ⟨fun ha => (hdis a ha) (Or.inl rfl), hnd⟩, h, ?_⟩
        intro b hb hbs
        exact hdis b hb (Or.inr hbs)
      · rintro ⟨rfl, ⟨hna, hnd⟩, _, hdis⟩
        refine ⟨rfl, hnd, ?_⟩
        intro b hb hbs
        rcases hbs with rfl | hbs
        · exact hna hb
        · exact hdis b hb hbs

theorem validateSubcommands_ok (cn : String) (subs : List Command) :
    ∀ (seen : List String),
      validateSubcommands cn subs seen = .ok () ↔
        (subs.flatMap Command.Aliases).Nodup ∧
          ∀ a ∈ subs.flatMap Command.Aliases, a ∉ seen := by
  induction subs with
  | nil => intro seen; simp [validateSubcommands]
  | cons s subs ih =>
    intro seen
    rw [validateSubcommands]
    cases hv : validateAliases cn s.Name s.Aliases seen with
    | error e =>
      have hno : ¬ (s.Aliases.Nodup ∧ ∀ a ∈ s.Aliases, a ∉ seen) := by
        intro hh
        have := (validateAliases_ok cn s.Name s.Aliases seen (s.Aliases.reverse ++ seen)).mpr
          ⟨rfl, hh.1, hh.2⟩
        rw [hv] at this
        cases this
      simp only [List.flatMap_cons, List.nodup_append, List.mem_append]
      constructor
      · intro h; cases h
      · rintro ⟨⟨h1, _, _⟩, h2⟩
        exact absurd ⟨h1, fun a ha => h2 a (Or.inl ha)⟩ hno
    | ok out =>
      obtain ⟨rfl, hnd, hdis⟩ := (validateAliases_ok cn s.Name s.Aliases seen out).mp hv
      simp only
      rw [ih]
      simp only [List.flatMap_cons, List.nodup_append, List.mem_append, List.mem_reverse,
        List.Disjoint]
      constructor
      · rintro ⟨h1, h2⟩
        refine ⟨⟨hnd, h1, ?_⟩, ?_⟩
        · intro a ha hb
          exact h2 a hb (Or.inl ha)
        · intro a ha
          rcases ha with ha | ha
          · exact hdis a ha
          · exact fun hs => h2 a ha (Or.inr hs)
      · rintro ⟨⟨_, h1, h3⟩, h2⟩
        refine ⟨h1, ?_⟩
        intro a ha hs
        rcases hs with hs | hs
        · exact h3 hs ha
        · exact h2 a (Or.inr ha) hs

/-- The validator returns exactly when, under every top-level command, the alias lists of
the direct subcommands, written one after the other, hold no value twice. -/
theorem validateAliasesDuplication_ok (cmds : List Command) :
    validateAliasesDuplication cmds = .ok () ↔
      ∀ c ∈ cmds, (c.Subcommands.flatMap Command.Aliases).Nodup := by
  induction cmds with
  | nil => simp [validateAliasesDuplication]
  | cons c cmds ih =>
    rw [validateAliasesDuplication]
    cases hv : validateSubcommands c.Name c.Subcommands [] with
    | error e =>
      have hno : ¬ (c.Subcommands.flatMap Command.Aliases).Nodup := by
        intro hh
        have := (validateSubcommands_ok c.Name c.Subcommands []).mpr ⟨hh, by simp⟩
        rw [hv] at this
        cases this
      simp only [List.mem_cons, forall_eq_or_imp]
      constructor
      · intro h; cases h
      · rintro ⟨h1, _⟩
        exact absurd h1 hno
    | ok u =>
      have := ((validateSubcommands_ok c.Name c.Subcommands []).mp hv).1
      simp only [List.mem_cons, forall_eq_or_imp]
      rw [ih]
      exact ⟨fun h => ⟨this, h⟩, fun h => h.2⟩

/-! ## Claims about `searchSimilarCmds` -/

/-- C1: for a registry (descriptors without a command path) and a token that no direct
subcommand of a top-level command is invoked by, when the least distance `m` of a top-level
invocation name to the token is at most 2, `searchSimilarCmds` returns exactly the
top-level invocation names at distance `m`, in registry order and then `Names` order; so
every returned entry is at distance `m` and none at a larger distance is returned. -/
theorem searchSimilarCmds_closest_names (cmds : List Command) (tok : String) (m : Nat)
    (hreg : ∀ c ∈ cmds, c.commandNamePath = [])
    (hsub : ∀ c ∈ cmds, ∀ s ∈ c.Subcommands, tok ∉ s.Names)
    (hatt : ∃ n ∈ topNames cmds, ComputeDistance n tok = m)
    (hmin : ∀ n ∈ topNames cmds, m ≤ ComputeDistance n tok)
    (hm : m ≤ 2) :
    searchSimilarCmds cmds tok =
        (topNames cmds).filter (fun n => ComputeDistance n tok = m) ∧
      ∀ s ∈ searchSimilarCmds cmds tok, ComputeDistance s tok = m := by
  have h := searchSimilarCmds_eq_names cmds tok m hreg hsub hm hmin (Or.inr hatt)
  refine ⟨h, ?_⟩
  intro s hs
  rw [h] at hs
  simpa using (List.mem_filter.mp hs).2

/-- Witness of C1: on the scenario registry the token `confi` gives `["config"]`. -/
theorem searchSimilarCmds_closest_names_witness :
    searchSimilarCmds scenarioRegistry "confi" = ["config"] :=
  (searchSimilarCmds_closest_names scenarioRegistry "confi" 1 (by decide) (by decide)
    (by decide) (by decide) (by decide)).1.trans (by decide)

/-- C2, as stated, fails: `rt` and `ds` both have a subcommand `ping`; for the token `ping`
and the command `ds` the result is `["rt ping"]`, not `["ds ping"]`. -/
theorem exact_match_any_command_counterexample :
    ¬ ∀ (cmds : List Command) (tok : String) (c : Command), c ∈ cmds →
        (∃ s ∈ c.Subcommands, tok ∈ s.Names) →
        searchSimilarCmds cmds tok = [c.Name ++ " " ++ tok] := by
  intro h
  have h1 := h [mkCommand "rt" [] [mkCommand "ping" ["p"] []],
      mkCommand "ds" [] [mkCommand "ping" [] []]] "ping"
    (mkCommand "ds" [] [mkCommand "ping" [] []]) (by simp)
    ⟨mkCommand "ping" [] [], by simp [mkCommand], by decide⟩
  revert h1
  decide

/-- C2, amended: if the token is the name or an alias of a direct subcommand of the
top-level command `c`, and of no direct subcommand of a command before `c` in the registry,
then `searchSimilarCmds` returns exactly `[c.Name ++ " " ++ tok]`, whatever the distances of
the top-level names. -/
theorem searchSimilarCmds_exact_match_priority (pre : List Command) (c : Command)
    (post : List Command) (tok : String)
    (hpre : ∀ c' ∈ pre, ∀ s ∈ c'.Subcommands, tok ∉ s.Names)
    (hc : ∃ s ∈ c.Subcommands, tok ∈ s.Names) :
    searchSimilarCmds (pre ++ c :: post) tok = [c.Name ++ " " ++ tok] :=
  searchLoop_exact tok pre c post 2 [] hpre hc

/-- Witness of the amended C2: `upload` is itself a top-level name at distance 0, listed
first, and still the subcommand of `artifactory` is suggested. -/
theorem searchSimilarCmds_exact_match_priority_witness :
    searchSimilarCmds
      ([mkCommand "upload" [] []] ++
        mkCommand "artifactory" ["rt"] [mkCommand "upload" ["u"] []] ::
        [mkCommand "config" ["c"] []]) "upload" = ["artifactory" ++ " " ++ "upload"] :=
  searchSimilarCmds_exact_match_priority [mkCommand "upload" [] []]
    (mkCommand "artifactory" ["rt"] [mkCommand "upload" ["u"] []])
    [mkCommand "config" ["c"] []] "upload" (by decide)
    ⟨mkCommand "upload" ["u"] [], by simp [mkCommand], by decide⟩

/-- C3: when some direct subcommand of some top-level command is invoked by the token, the
result is a single string, a top-level name having such a subcommand, a space, and the
token; no top-level similarity suggestion is in it. -/
theorem searchSimilarCmds_exact_single (cmds : List Command) (tok : String)
    (h : ∃ c ∈ cmds, ∃ s ∈ c.Subcommands, tok ∈ s.Names) :
    ∃ c ∈ cmds, (∃ s ∈ c.Subcommands, tok ∈ s.Names) ∧
      searchSimilarCmds cmds tok = [c.Name ++ " " ++ tok] ∧
      (searchSimilarCmds cmds tok).length = 1 := by
  obtain ⟨c, hc, hsubc, hres⟩ := searchSimilarCmds_exact_single_aux cmds tok h
  exact ⟨c, hc, hsubc, hres, by rw [hres]; rfl⟩

/-- Witness of C3: on the scenario registry the token `upload` gives
`["artifactory upload"]`. -/
theorem searchSimilarCmds_exact_single_witness :
    (∃ c ∈ scenarioRegistry, (∃ s ∈ c.Subcommands, "upload" ∈ s.Names) ∧
        searchSimilarCmds scenarioRegistry "upload" = [c.Name ++ " " ++ "upload"] ∧
        (searchSimilarCmds scenarioRegistry "upload").length = 1) ∧
      searchSimilarCmds scenarioRegistry "upload" = ["artifactory upload"] :=
  ⟨searchSimilarCmds_exact_single scenarioRegistry "upload" (by decide), by decide⟩

/-- C4, as stated, fails: in the registry of `rt` (alias `ar`) and `c` exactly two top-level
commands have an invocation name at distance 2 from `xx`, none is closer and there is no
subcommand, yet three suggestions are returned, `rt`, `ar` and `c`. -/
theorem tie_accumulation_two_commands_counterexample :
    ¬ ∀ (cmds : List Command) (tok : String),
        (∀ c ∈ cmds, c.commandNamePath = []) →
        (∀ c ∈ cmds, ∀ s ∈ c.Subcommands, tok ∉ s.Names) →
        cmds.countP (fun c => decide (∃ n ∈ c.Names, ComputeDistance n tok = 2)) = 2 →
        (∀ n ∈ topNames cmds, 2 ≤ ComputeDistance n tok) →
        (searchSimilarCmds cmds tok).length = 2 := by
  intro h
  have h1 := h [mkCommand "rt" ["ar"] [], mkCommand "c" [] []] "xx"
    (by decide) (by decide) (by decide) (by decide)
  revert h1
  decide

/-- C4, amended: for a registry in which exactly two top-level invocation names, `n1` before
`n2`, are at distance 2 from the token, none is closer and no direct subcommand is invoked
by the token, `searchSimilarCmds` returns `[n1, n2]`, and the text shown to the user lists
the two in lexicographic order. -/
theorem searchSimilarCmds_tie_accumulation (cmds : List Command) (tok n1 n2 : String)
    (hreg : ∀ c ∈ cmds, c.commandNamePath = [])
    (hsub : ∀ c ∈ cmds, ∀ s ∈ c.Subcommands, tok ∉ s.Names)
    (hmin : ∀ n ∈ topNames cmds, 2 ≤ ComputeDistance n tok)
    (htwo : (topNames cmds).filter (fun n => ComputeDistance n tok = 2) = [n1, n2]) :
    searchSimilarCmds cmds tok = [n1, n2] ∧
      sortStrings (searchSimilarCmds cmds tok) =
        (if n1.data ≤ n2.data then [n1, n2] else [n2, n1]) ∧
      similarityText (searchSimilarCmds cmds tok) =
        some ("The most similar " ++ ("commands are:\n\tjf " ++
          "\n\tjf ".intercalate (if n1.data ≤ n2.data then [n1, n2] else [n2, n1]))) := by
  have h := searchSimilarCmds_eq_names cmds tok 2 hreg hsub (le_refl 2) hmin (Or.inl rfl)
  rw [htwo] at h
  have hs : sortStrings [n1, n2] = (if n1.data ≤ n2.data then [n1, n2] else [n2, n1]) := by
    simp [sortStrings, List.insertionSort, List.orderedInsert]
  refine ⟨h, by rw [h, hs], ?_⟩
  rw [h, similarityText, hs]
  simp

/-- Witness of the amended C4: on the scenario registry the token `xx` gives `rt` and `c`,
shown as `c` then `rt`. -/
theorem searchSimilarCmds_tie_accumulation_witness :
    searchSimilarCmds scenarioRegistry "xx" = ["rt", "c"] ∧
      similarityText (searchSimilarCmds scenarioRegistry "xx") =
        some "The most similar commands are:\n\tjf c\n\tjf rt" :=
  have h := searchSimilarCmds_tie_accumulation scenarioRegistry "xx" "rt" "c"
    (by decide) (by decide) (by decide) (by decide)
  ⟨h.1, h.2.2.trans (by decide)⟩

/-- C5, as stated, fails: `zz` matches `cf` at distance 2, the later `cx` is the only
invocation name at distance 1, nothing is a subcommand, and the result is `["cf"]`, the
name at distance 0 of a third command, not `["cx"]`. -/
theorem strict_improvement_counterexample :
    ¬ ∀ (pre : List Command) (c : Command) (post : List Command) (tok n : String),
        (∀ c' ∈ pre ++ c :: post, c'.commandNamePath = []) →
        (∀ c' ∈ pre ++ c :: post, ∀ s ∈ c'.Subcommands, tok ∉ s.Names) →
        (∃ p ∈ pre, ∃ k ∈ p.Names, ComputeDistance k tok = 2) →
        n ∈ c.Names →
        (topNames (pre ++ c :: post)).filter (fun k => ComputeDistance k tok = 1) = [n] →
        searchSimilarCmds (pre ++ c :: post) tok = [n] := by
  intro h
  have h1 := h [mkCommand "zz" [] []] (mkCommand "cx" [] []) [mkCommand "cf" [] []] "cf" "cx"
    (by decide) (by decide) (by decide) (by decide) (by decide)
  revert h1
  decide

/-- C5, amended: if earlier top-level commands matched the token at distance 2, a later
command holds the only invocation name `n` at distance 1, no invocation name is at distance
0 and no direct subcommand is invoked by the token, then the result is exactly `[n]`: none
of the matches at distance 2 is kept. -/
theorem searchSimilarCmds_strict_improvement (pre : List Command) (c : Command)
    (post : List Command) (tok n : String)
    (hreg : ∀ c' ∈ pre ++ c :: post, c'.commandNamePath = [])
    (hsub : ∀ c' ∈ pre ++ c :: post, ∀ s ∈ c'.Subcommands, tok ∉ s.Names)
    (_hearlier : ∃ p ∈ pre, ∃ k ∈ p.Names, ComputeDistance k tok = 2)
    (_hn : n ∈ c.Names)
    (hone : (topNames (pre ++ c :: post)).filter (fun k => ComputeDistance k tok = 1) = [n])
    (hzero : ∀ k ∈ topNames (pre ++ c :: post), ComputeDistance k tok ≠ 0) :
    searchSimilarCmds (pre ++ c :: post) tok = [n] ∧
      ∀ k ∈ searchSimilarCmds (pre ++ c :: post) tok, ComputeDistance k tok ≠ 2 := by
  have hmem : n ∈ (topNames (pre ++ c :: post)).filter (fun k => ComputeDistance k tok = 1) := by
    rw [hone]; simp
  have hn1 := List.mem_filter.mp hmem
  have hd : ComputeDistance n tok = 1 := by simpa using hn1.2
  have h := searchSimilarCmds_eq_names (pre ++ c :: post) tok 1 hreg hsub (by decide)
    (fun k hk => Nat.one_le_iff_ne_zero.mpr (hzero k hk)) (Or.inr ⟨n, hn1.1, hd⟩)
  rw [hone] at h
  refine ⟨h, ?_⟩
  intro k hk
  rw [h] at hk
  have : k = n := by simpa using hk
  rw [this, hd]
  decide

/-- Witness of the amended C5: `zz` is at distance 2 from `cf`, the later `cx` at
distance 1, and only `cx` is returned. -/
theorem searchSimilarCmds_strict_improvement_witness :
    searchSimilarCmds ([mkCommand "zz" [] []] ++ mkCommand "cx" [] [] ::
      [mkCommand "artifactory" ["rt"] []]) "cf" = ["cx"] :=
  (searchSimilarCmds_strict_improvement [mkCommand "zz" [] []] (mkCommand "cx" [] [])
    [mkCommand "artifactory" ["rt"] []] "cf" "cx" (by decide) (by decide) (by decide) (by decide)
    (by decide) (by decide)).1

/-- C6: when no direct subcommand is invoked by the token and the least distance `m` of a
top-level invocation name is at most 2, the result lists, for each top-level command and
each of its invocation names at distance `m`, the command's full name with the first
occurrence of the canonical name replaced by that invocation name (the alias, for a match
through an alias); for a descriptor without a command path this string is the matched
name itself. -/
theorem searchSimilarCmds_alias_substitution (cmds : List Command) (tok : String) (m : Nat)
    (hsub : ∀ c ∈ cmds, ∀ s ∈ c.Subcommands, tok ∉ s.Names)
    (hatt : ∃ n ∈ topNames cmds, ComputeDistance n tok = m)
    (hmin : ∀ n ∈ topNames cmds, m ≤ ComputeDistance n tok)
    (hm : m ≤ 2) :
    searchSimilarCmds cmds tok =
        ((candidates cmds).filter (fun p => ComputeDistance p.2 tok = m)).map
          (fun p => stringsReplaceOne p.1.FullName p.1.Name p.2) ∧
      ∀ c ∈ cmds, c.commandNamePath = [] → ∀ a ∈ c.Names,
        stringsReplaceOne c.FullName c.Name a = a := by
  constructor
  · rw [searchSimilarCmds_eq_filter cmds tok hsub,
      finalDistance_eq cmds tok m hm hmin (Or.inr hatt)]
    rfl
  · intro c _ hc a _
    exact suggestion_of_topLevel c a hc

/-- Witness of C6: for `artifactory` with the alias `rt` and the token `rtt` the result is
`["rt"]`, without `artifactory`. -/
theorem searchSimilarCmds_alias_substitution_witness :
    searchSimilarCmds [mkCommand "artifactory" ["rt"] []] "rtt" = ["rt"] ∧
      "artifactory" ∉ searchSimilarCmds [mkCommand "artifactory" ["rt"] []] "rtt" ∧
      searchSimilarCmds scenarioRegistry "rtt" = ["rt"] :=
  have h := (searchSimilarCmds_alias_substitution [mkCommand "artifactory" ["rt"] []] "rtt" 1
    (by decide) (by decide) (by decide) (by decide)).1
  ⟨h.trans (by decide), by rw [h]; decide, by decide⟩

/-- C7, as stated, fails: on the scenario registry the token `confi` gives the bare
top-level name `config`, which is not a namespace, a space and a command. -/
theorem qualified_form_counterexample :
    ¬ ∀ (cmds : List Command) (tok : String), (∀ c ∈ cmds, c.commandNamePath = []) →
        ∀ s ∈ searchSimilarCmds cmds tok, ∃ ns cmd : String, s = ns ++ " " ++ cmd := by
  intro h
  obtain ⟨ns, cmd, he⟩ := h scenarioRegistry "confi" (by decide) "config" (by decide)
  have hd := congrArg String.data he
  rw [String.data_append, String.data_append] at hd
  have hmem : ' ' ∈ "config".data := by
    rw [hd]
    simp
  revert hmem
  decide

/-- C7, amended: every string returned for a registry is either a top-level name that has
a direct subcommand invoked by the token, a space and the token, or a bare top-level
invocation name within distance 2 of the token. -/
theorem searchSimilarCmds_entry_form (cmds : List Command) (tok : String)
    (hreg : ∀ c ∈ cmds, c.commandNamePath = []) :
    ∀ s ∈ searchSimilarCmds cmds tok,
      (∃ c ∈ cmds, (∃ sub ∈ c.Subcommands, tok ∈ sub.Names) ∧ s = c.Name ++ " " ++ tok) ∨
        (s ∈ topNames cmds ∧ ComputeDistance s tok ≤ 2) := by
  intro s hs
  by_cases hex : ∃ c ∈ cmds, ∃ sub ∈ c.Subcommands, tok ∈ sub.Names
  · obtain ⟨c, hc, hsubc, hres⟩ := searchSimilarCmds_exact_single_aux cmds tok hex
    rw [hres] at hs
    exact Or.inl ⟨c, hc, hsubc, by simpa using hs⟩
  · have hsub : ∀ c ∈ cmds, ∀ sub ∈ c.Subcommands, tok ∉ sub.Names :=
      fun c hc sub hsb hmem => hex ⟨c, hc, sub, hsb, hmem⟩
    rw [searchSimilarCmds_eq_filter cmds tok hsub,
      map_suggestion_candidates
        (fun n => decide (ComputeDistance n tok = finalDistance cmds tok)) cmds hreg] at hs
    obtain ⟨h1, h2⟩ := List.mem_filter.mp hs
    have h3 : ComputeDistance s tok = finalDistance cmds tok := by simpa using h2
    exact Or.inr ⟨h1, h3 ▸ finalDistance_le cmds tok⟩

/-- Witness of the amended C7: the one entry for `upload` on the scenario registry is of
the first form. -/
theorem searchSimilarCmds_entry_form_witness :
    (∃ c ∈ scenarioRegistry, (∃ sub ∈ c.Subcommands, "upload" ∈ sub.Names) ∧
        "artifactory upload" = c.Name ++ " " ++ "upload") ∨
      ("artifactory upload" ∈ topNames scenarioRegistry ∧
        ComputeDistance "artifactory upload" "upload" ≤ 2) :=
  searchSimilarCmds_entry_form scenarioRegistry "upload" (by decide) "artifactory upload"
    (by decide)

/-- C8: the result is empty for the empty registry and, for any registry, whenever no
top-level invocation name is within distance 2 of the token and no direct subcommand is
invoked by the token. -/
theorem searchSimilarCmds_empty (cmds : List Command) (tok : String) :
    searchSimilarCmds [] tok = [] ∧
      ((∀ n ∈ topNames cmds, 2 < ComputeDistance n tok) →
        (∀ c ∈ cmds, ∀ s ∈ c.Subcommands, tok ∉ s.Names) →
        searchSimilarCmds cmds tok = []) := by
  refine ⟨rfl, ?_⟩
  intro hfar hsub
  rw [searchSimilarCmds_eq_filter cmds tok hsub,
    finalDistance_eq cmds tok 2 (le_refl 2) (fun n hn => Nat.le_of_lt (hfar n hn)) (Or.inl rfl)]
  rw [List.map_eq_nil_iff, List.filter_eq_nil_iff]
  intro p hp hd
  have := hfar p.2 (snd_mem_topNames cmds p hp)
  have hd2 : ComputeDistance p.2 tok = 2 := by simpa using hd
  omega

/-- Witness of C8: no invocation name of the scenario registry is within distance 2 of
`xxxx`, and nothing is suggested. -/
theorem searchSimilarCmds_empty_witness :
    searchSimilarCmds scenarioRegistry "xxxx" = [] :=
  (searchSimilarCmds_empty scenarioRegistry "xxxx").2 (by decide) (by decide)

/-- C9: for a registry whose top-level invocation names are pairwise distinct, a token
that is the name of a top-level command `c` and is not an invocation name of any direct
subcommand, the result is exactly `[c.Name]` (reached through the similarity scan, at
distance 0). -/
theorem searchSimilarCmds_top_level_name (cmds : List Command) (c : Command) (tok : String)
    (hreg : ∀ c' ∈ cmds, c'.commandNamePath = [])
    (hnodup : (topNames cmds).Nodup)
    (hc : c ∈ cmds) (htok : tok = c.Name)
    (hsub : ∀ c' ∈ cmds, ∀ s ∈ c'.Subcommands, tok ∉ s.Names) :
    searchSimilarCmds cmds tok = [c.Name] ∧ finalDistance cmds tok = 0 := by
  have hmem : tok ∈ topNames cmds :=
    (mem_topNames cmds tok).mpr ⟨c, hc, by rw [htok]; simp [Command.Names]⟩
  have hatt : ∃ n ∈ topNames cmds, ComputeDistance n tok = 0 :=
    ⟨tok, hmem, ComputeDistance_self tok⟩
  have h := searchSimilarCmds_eq_names cmds tok 0 hreg hsub (by decide)
    (fun _ _ => Nat.zero_le _) (Or.inr hatt)
  refine ⟨?_, finalDistance_eq cmds tok 0 (by decide) (fun _ _ => Nat.zero_le _)
    (Or.inr hatt)⟩
  rw [h, ← htok]
  have hf : (topNames cmds).filter (fun n => decide (ComputeDistance n tok = 0)) =
      (topNames cmds).filter (fun n => decide (n = tok)) := by
    apply List.filter_congr
    intro n _
    simp [ComputeDistance_eq_zero_iff]
  rw [hf, List.filter_eq, List.count_eq_one_of_mem hnodup hmem]
  rfl

/-- Witness of C9: on the scenario registry the token `config` gives `["config"]`. -/
theorem searchSimilarCmds_top_level_name_witness :
    searchSimilarCmds scenarioRegistry "config" = ["config"] :=
  (searchSimilarCmds_top_level_name scenarioRegistry (mkCommand "config" ["c"] []) "config"
    (by decide) (by decide) (by simp [scenarioRegistry]) rfl (by decide)).1

/-! ## Claims about `validateAliasesDuplication` -/

/-- C10: if the validator returns on a registry, then under every top-level command any two
direct subcommands at different positions have disjoint alias lists; and a registry in
which two direct subcommands at different positions share an alias makes it fail. -/
theorem validateAliasesDuplication_siblings_disjoint (cmds : List Command) :
    (validateAliasesDuplication cmds = .ok () →
      ∀ c ∈ cmds, ∀ (i j : Nat) (hi : i < c.Subcommands.length)
        (hj : j < c.Subcommands.length), i ≠ j →
        ∀ a ∈ (c.Subcommands[i]).Aliases, a ∉ (c.Subcommands[j]).Aliases) ∧
    ((∃ c ∈ cmds, ∃ (i j : Nat) (hi : i < c.Subcommands.length)
        (hj : j < c.Subcommands.length), i ≠ j ∧
        ∃ a ∈ (c.Subcommands[i]).Aliases, a ∈ (c.Subcommands[j]).Aliases) →
      ∃ e, validateAliasesDuplication cmds = .error e) := by
  have key : validateAliasesDuplication cmds = .ok () →
      ∀ c ∈ cmds, ∀ (i j : Nat) (hi : i < c.Subcommands.length)
        (hj : j < c.Subcommands.length), i ≠ j →
        ∀ a ∈ (c.Subcommands[i]).Aliases, a ∉ (c.Subcommands[j]).Aliases := by
    intro hok c hc i j hi hj hij a ha hb
    have hnd := (validateAliasesDuplication_ok cmds).mp hok c hc
    have hpw := (List.nodup_flatMap.mp hnd).2
    rw [List.pairwise_iff_getElem] at hpw
    rcases Nat.lt_or_gt_of_ne hij with hlt | hgt
    · exact hpw i j hi hj hlt ha hb
    · exact hpw j i hj hi hgt hb ha
  refine ⟨key, ?_⟩
  rintro ⟨c, hc, i, j, hi, hj, hij, a, ha, hb⟩
  cases hv : validateAliasesDuplication cmds with
  | error e => exact ⟨e, rfl⟩
  | ok u => exact absurd hb (key hv c hc i j hi hj hij a ha)

/-- Witness of C10: the scenario registry passes, and a registry in which `upload` and
`use` both declare the alias `u` under `rt` fails. -/
theorem validateAliasesDuplication_siblings_disjoint_witness :
    validateAliasesDuplication scenarioRegistry = .ok () ∧
      ∃ e, validateAliasesDuplication
        [mkCommand "rt" [] [mkCommand "upload" ["u"] [], mkCommand "use" ["u"] []]] =
          .error e :=
  ⟨rfl, (validateAliasesDuplication_siblings_disjoint
      [mkCommand "rt" [] [mkCommand "upload" ["u"] [], mkCommand "use" ["u"] []]]).2
    ⟨mkCommand "rt" [] [mkCommand "upload" ["u"] [], mkCommand "use" ["u"] []],
      by simp, 0, 1, by decide, by decide, by decide, "u", by decide, by decide⟩⟩

/-- C11: a registry in which no alias occurs twice among the direct subcommands of one
top-level command passes the validator, whatever aliases two different top-level commands
have in common. -/
theorem validateAliasesDuplication_siblings_only (cmds : List Command)
    (h : ∀ c ∈ cmds, (c.Subcommands.flatMap Command.Aliases).Nodup) :
    validateAliasesDuplication cmds = .ok () :=
  (validateAliasesDuplication_ok cmds).mpr h

/-- Witness of C11: `rt upload` and `ds upload` both declare the alias `u`, and the
registry passes. -/
theorem validateAliasesDuplication_siblings_only_witness :
    "u" ∈ (mkCommand "upload" ["u"] []).Aliases ∧
      validateAliasesDuplication
        [mkCommand "rt" [] [mkCommand "upload" ["u"] [], mkCommand "ping" ["p"] []],
         mkCommand "ds" [] [mkCommand "upload" ["u"] []]] = .ok () :=
  ⟨by decide, validateAliasesDuplication_siblings_only
    [mkCommand "rt" [] [mkCommand "upload" ["u"] [], mkCommand "ping" ["p"] []],
     mkCommand "ds" [] [mkCommand "upload" ["u"] []]] (by decide)⟩

/-- C12, as stated, fails: under `rt` the subcommand `up` declares the alias `upload`, the
primary name of its sibling, and the validator returns. -/
theorem alias_against_names_counterexample :
    ¬ ∀ (cmds : List Command), validateAliasesDuplication cmds = .ok () →
        ∀ c ∈ cmds, ∀ (i j : Nat) (hi : i < c.Subcommands.length)
          (hj : j < c.Subcommands.length), i ≠ j →
          ∀ a ∈ (c.Subcommands[i]).Names, a ∉ (c.Subcommands[j]).Names := by
  intro h
  have h1 := h [mkCommand "rt" [] [mkCommand "upload" [] [], mkCommand "up" ["upload"] []]]
    rfl (mkCommand "rt" [] [mkCommand "upload" [] [], mkCommand "up" ["upload"] []])
    (by simp) 0 1 (by decide) (by decide) (by decide) "upload" (by decide)
  revert h1
  decide

/-- The validator reads the alias lists only: two lists of subcommands with the same alias
lists, whatever their names, are accepted or rejected together. -/
theorem validateSubcommands_aliases_only (cn cn' : String) (subs subs' : List Command)
    (h : subs.map Command.Aliases = subs'.map Command.Aliases) :
    validateSubcommands cn subs [] = .ok () ↔ validateSubcommands cn' subs' [] = .ok () := by
  have hf : subs.flatMap Command.Aliases = subs'.flatMap Command.Aliases := by
    rw [List.flatMap, List.flatMap, h]
  rw [validateSubcommands_ok, validateSubcommands_ok, hf]

/-- C12, amended: after the validation passes, under every top-level command no alias
value is declared twice among the direct subcommands (by two siblings or by one of them);
the names are not looked at: registries whose subcommands have the same alias lists are
accepted or rejected together, whatever the names. -/
theorem validateAliasesDuplication_aliases_only (cmds : List Command) :
    (validateAliasesDuplication cmds = .ok () →
      ∀ c ∈ cmds, (c.Subcommands.flatMap Command.Aliases).Nodup) ∧
    ∀ cmds' : List Command,
      cmds.map (fun c => c.Subcommands.map Command.Aliases) =
        cmds'.map (fun c => c.Subcommands.map Command.Aliases) →
      (validateAliasesDuplication cmds = .ok () ↔ validateAliasesDuplication cmds' = .ok ()) := by
  refine ⟨(validateAliasesDuplication_ok cmds).mp, ?_⟩
  intro cmds' h
  rw [validateAliasesDuplication_ok, validateAliasesDuplication_ok]
  have key : ∀ l : List Command, (∀ c ∈ l, (c.Subcommands.flatMap Command.Aliases).Nodup) ↔
      ∀ x ∈ l.map (fun c => c.Subcommands.map Command.Aliases), x.flatten.Nodup := by
    intro l
    simp [List.flatMap]
  rw [key cmds, key cmds', h]

/-- Witness of the amended C12: a registry that passes has no alias twice under `rt`, and
it passes together with the registry in which `up` is renamed `upload`. -/
theorem validateAliasesDuplication_aliases_only_witness :
    (∀ c ∈ [mkCommand "rt" [] [mkCommand "upload" [] [], mkCommand "up" ["upload"] []]],
        (c.Subcommands.flatMap Command.Aliases).Nodup) ∧
      (validateAliasesDuplication
          [mkCommand "rt" [] [mkCommand "upload" [] [], mkCommand "up" ["upload"] []]] = .ok () ↔
        validateAliasesDuplication
          [mkCommand "rt" [] [mkCommand "upload" [] [], mkCommand "upload" ["upload"] []]] =
            .ok ()) :=
  have h := validateAliasesDuplication_aliases_only
    [mkCommand "rt" [] [mkCommand "upload" [] [], mkCommand "up" ["upload"] []]]
  ⟨h.1 rfl, h.2 [mkCommand "rt" [] [mkCommand "upload" [] [], mkCommand "upload" ["upload"] []]]
    (by decide)⟩

/-! ## Claims about `getCommands`, `ConvertEmbeddedPlugin` and `execMain` -/

/-- C13: when the conversion of the embedded plugin succeeds, `getCommands` returns, with
a nil error, the built-in descriptors, then the converted plugin descriptors, the installed
plugins, the build-tools commands, the lifecycle commands and the build-tools help
commands, each list in its own order; the length is the sum of the lengths and the
built-in list is the start of the result, as declared. -/
theorem getCommands_concatenation (env : Collaborators)
    (h : (ConvertEmbeddedPlugin env.convertAppCommands env.securityApp).2 = none) :
    getCommands env =
        (cliNameSpaces env ++
          (ConvertEmbeddedPlugin env.convertAppCommands env.securityApp).1 ++
          env.installedPlugins ++ env.buildtoolsCommands ++ env.lifecycleCommands ++
          env.buildToolsHelpCommands, none) ∧
      (getCommands env).1.length =
        (cliNameSpaces env).length +
          (ConvertEmbeddedPlugin env.convertAppCommands env.securityApp).1.length +
          env.installedPlugins.length + env.buildtoolsCommands.length +
          env.lifecycleCommands.length + env.buildToolsHelpCommands.length ∧
      (getCommands env).1.take (cliNameSpaces env).length = cliNameSpaces env := by
  have hg : getCommands env =
      (cliNameSpaces env ++
        (ConvertEmbeddedPlugin env.convertAppCommands env.securityApp).1 ++
        env.installedPlugins ++ env.buildtoolsCommands ++ env.lifecycleCommands ++
        env.buildToolsHelpCommands, none) := by
    unfold getCommands
    cases hc : ConvertEmbeddedPlugin env.convertAppCommands env.securityApp with
    | mk cs e =>
      rw [hc] at h
      simp only at h
      subst h
      simp
  refine ⟨hg, ?_, ?_⟩
  · rw [hg]
    simp only [List.length_append]
  · rw [hg]
    simp only [List.append_assoc]
    exact List.take_left' rfl

/-- Witness of C13: with collaborators that contribute nothing the result is the fifteen
built-in descriptors, `rt` first and `access-token-create` last. -/
theorem getCommands_concatenation_witness :
    (getCommands bareCollaborators).1.map (fun c => c.Name) =
      ["rt", "mc", "ds", "pl", "completion", "plugin", "config", "project", "ci-setup",
       "setup", "intro", "options", "login", "how", "access-token-create"] :=
  have h := (getCommands_concatenation bareCollaborators rfl).1
  (congrArg (fun r => r.1.map (fun c => c.Name)) h).trans (by decide)

theorem sortByName_perm (commands : List Command) : (sortByName commands).Perm commands :=
  List.perm_insertionSort _ commands

theorem sortByName_sorted (commands : List Command) :
    List.Sorted (fun a b : Command => a.Name ≤ b.Name) (sortByName commands) := by
  have : List.Sorted (fun a b : Command => a.Name.data ≤ b.Name.data) (sortByName commands) := by
    have _i1 : IsTotal Command (fun a b : Command => a.Name.data ≤ b.Name.data) :=
      ⟨fun a b => le_total a.Name.data b.Name.data⟩
    have _i2 : IsTrans Command (fun a b : Command => a.Name.data ≤ b.Name.data) :=
      ⟨fun _ _ _ h1 h2 => le_trans h1 h2⟩
    exact List.sorted_insertionSort _ commands
  exact List.Pairwise.imp (fun h => String.le_iff_toList_le.mpr h) this

/-- C14: the command list that `execMain` installs on the application is a permutation of
the list returned by `getCommands`, ascending by name in the case-sensitive, byte-wise
order of strings. -/
theorem execMain_commands_sorted (env : Collaborators) (appRun : List Command → Option String) :
    (execMain env appRun).Commands.Perm (getCommands env).1 ∧
      List.Sorted (fun a b : Command => a.Name ≤ b.Name) (execMain env appRun).Commands := by
  unfold execMain
  exact ⟨sortByName_perm _, sortByName_sorted _⟩

/-! ## The command listing of `execMain` -/

theorem mapAppend_listed_self (m : List (String × List MyCommand)) (k : String)
    (v : MyCommand) : ∃ vs, (k, vs) ∈ mapAppend m k v ∧ v ∈ vs := by
  induction m with
  | nil => exact ⟨[v], by simp [mapAppend], by simp⟩
  | cons p m ih =>
    obtain ⟨k', vs'⟩ := p
    rw [mapAppend]
    by_cases hk : k' = k
    · rw [if_pos hk]
      exact ⟨vs' ++ [v], by simp [hk], by simp⟩
    · rw [if_neg hk]
      obtain ⟨vs, h1, h2⟩ := ih
      exact ⟨vs, List.mem_cons_of_mem _ h1, h2⟩

theorem mapAppend_listed_of_listed (m : List (String × List MyCommand)) (k : String)
    (v : MyCommand) (k0 : String) (v0 : MyCommand)
    (h : ∃ vs, (k0, vs) ∈ m ∧ v0 ∈ vs) : ∃ vs, (k0, vs) ∈ mapAppend m k v ∧ v0 ∈ vs := by
  induction m with
  | nil =>
    obtain ⟨vs, h1, _⟩ := h
    simp at h1
  | cons p m ih =>
    obtain ⟨k', vs'⟩ := p
    obtain ⟨vs, h1, h2⟩ := h
    rw [mapAppend]
    by_cases hk : k' = k
    · rw [if_pos hk]
      rcases List.mem_cons.mp h1 with he | hm
      · have e1 : k0 = k' := (Prod.mk.inj he).1
        have e2 : vs = vs' := (Prod.mk.inj he).2
        exact ⟨vs' ++ [v], by simp [e1], by simp [← e2, h2]⟩
      · exact ⟨vs, List.mem_cons_of_mem _ hm, h2⟩
    · rw [if_neg hk]
      rcases List.mem_cons.mp h1 with he | hm
      · exact ⟨vs, by rw [he]; exact List.mem_cons_self _ _, h2⟩
      · obtain ⟨ws, h3, h4⟩ := ih ⟨vs, hm, h2⟩
        exact ⟨ws, List.mem_cons_of_mem _ h3, h4⟩

theorem mapAppend_keys (m : List (String × List MyCommand)) (k : String) (v : MyCommand)
    (p : String × List MyCommand) (hp : p ∈ mapAppend m k v) :
    p.1 = k ∨ ∃ q ∈ m, q.1 = p.1 := by
  induction m with
  | nil =>
    have : p = (k, [v]) := by simpa [mapAppend] using hp
    exact Or.inl (by rw [this])
  | cons q m ih =>
    obtain ⟨k', vs'⟩ := q
    rw [mapAppend] at hp
    by_cases hk : k' = k
    · rw [if_pos hk] at hp
      rcases List.mem_cons.mp hp with he | hm
      · exact Or.inl (by rw [he]; exact hk)
      · exact Or.inr ⟨p, List.mem_cons_of_mem _ hm, rfl⟩
    · rw [if_neg hk] at hp
      rcases List.mem_cons.mp hp with he | hm
      · exact Or.inr ⟨(k', vs'), List.mem_cons_self _ _, by rw [he]⟩
      · rcases ih hm with h1 | ⟨q, hq, hq1⟩
        · exact Or.inl h1
        · exact Or.inr ⟨q, List.mem_cons_of_mem _ hq, hq1⟩

/-- The key under which the loop of `execMain` files a command. -/
theorem listCommands_step_key (com : Command) :
    (if com.Category = "" then { com with Category := otherCategory } else com).Category =
      (if com.Category = "" then otherCategory else com.Category) := by
  by_cases h : com.Category = ""
  · rw [if_pos h, if_pos h]
  · rw [if_neg h, if_neg h]

theorem listCommands_foldl (commands : List Command) :
    ∀ (m : List (String × List MyCommand)),
      (∀ p ∈ m, p.1 ≠ "") →
      (∀ p ∈ commands.foldl
          (fun allCommands com =>
            if com.Hidden then allCommands
            else
              mapAppend allCommands
                (if com.Category = "" then { com with Category := otherCategory }
                  else com).Category (copySubcommands com)) m, p.1 ≠ "") ∧
      (∀ k0 v0, (∃ vs, (k0, vs) ∈ m ∧ v0 ∈ vs) →
        ∃ vs, (k0, vs) ∈ commands.foldl
          (fun allCommands com =>
            if com.Hidden then allCommands
            else
              mapAppend allCommands
                (if com.Category = "" then { com with Category := otherCategory }
                  else com).Category (copySubcommands com)) m ∧ v0 ∈ vs) ∧
      (∀ c ∈ commands, c.Hidden = false →
        ∃ vs, ((if c.Category = "" then otherCategory else c.Category), vs) ∈
          commands.foldl
            (fun allCommands com =>
              if com.Hidden then allCommands
              else
                mapAppend allCommands
                  (if com.Category = "" then { com with Category := otherCategory }
                    else com).Category (copySubcommands com)) m ∧
          copySubcommands c ∈ vs) := by
  induction commands with
  | nil =>
    intro m hm
    exact ⟨by simpa using hm, by simp, by simp⟩
  | cons com commands ih =>
    intro m hm
    rw [List.foldl_cons]
    by_cases hh : com.Hidden = true
    · rw [if_pos hh]
      obtain ⟨h1, h2, h3⟩ := ih m hm
      refine ⟨h1, h2, ?_⟩
      intro c hc hcv
      rcases List.mem_cons.mp hc with rfl | hc
      · rw [hh] at hcv; cases hcv
      · exact h3 c hc hcv
    · rw [if_neg hh, listCommands_step_key]
      have hkey : (if com.Category = "" then otherCategory else com.Category) ≠ "" := by
        by_cases hc : com.Category = ""
        · rw [if_pos hc]; decide
        · rw [if_neg hc]; exact hc
      have hm' : ∀ p ∈ mapAppend m (if com.Category = "" then otherCategory else com.Category)
          (copySubcommands com), p.1 ≠ "" := by
        intro p hp
        rcases mapAppend_keys m _ _ p hp with h | ⟨q, hq, hq1⟩
        · rw [h]; exact hkey
        · rw [← hq1]; exact hm q hq
      obtain ⟨h1, h2, h3⟩ := ih _ hm'
      refine ⟨h1, ?_, ?_⟩
      · intro k0 v0 hl
        exact h2 k0 v0 (mapAppend_listed_of_listed m _ _ k0 v0 hl)
      · intro c hc hcv
        rcases List.mem_cons.mp hc with rfl | hc
        · exact h2 _ _ (mapAppend_listed_self m _ _)
        · exact h3 c hc hcv

/-- C15, as stated, fails: the built-in descriptors `setup` and `intro` are built without
a category and are installed by `execMain` with the category `""`. -/
theorem empty_category_registered_counterexample :
    (∃ c ∈ (execMain bareCollaborators (fun _ => none)).Commands,
        c.Name = "setup" ∧ c.Category = "") ∧
      (∃ c ∈ (execMain bareCollaborators (fun _ => none)).Commands,
        c.Name = "intro" ∧ c.Category = "") ∧
      ¬ ∀ (env : Collaborators) (appRun : List Command → Option String),
          ∀ c ∈ (execMain env appRun).Commands, c.Category ≠ "" := by
  have h1 : ∃ c ∈ (execMain bareCollaborators (fun _ => none)).Commands,
      c.Name = "setup" ∧ c.Category = "" := by decide
  refine ⟨h1, by decide, ?_⟩
  intro h
  obtain ⟨c, hc, _, hcat⟩ := h1
  exact h bareCollaborators (fun _ => none) c hc hcat

/-- C15, amended: in the command listing that `execMain` builds, every descriptor of
`getCommands` that is not hidden is filed under its category, and under `Other` when it was
built with the category `""`; no key of the listing is `""`.  The command list installed on
the application holds the descriptors of `getCommands` as they are. -/
theorem execMain_listing_category (env : Collaborators)
    (appRun : List Command → Option String) :
    (∀ c ∈ (getCommands env).1, c.Hidden = false →
        ∃ vs, ((if c.Category = "" then "Other" else c.Category), vs) ∈
            (execMain env appRun).allCommands ∧ copySubcommands c ∈ vs) ∧
      (∀ p ∈ (execMain env appRun).allCommands, p.1 ≠ "") ∧
      (∀ c, c ∈ (execMain env appRun).Commands ↔ c ∈ (getCommands env).1) := by
  obtain ⟨h1, _, h3⟩ := listCommands_foldl (getCommands env).1 [] (by simp)
  refine ⟨?_, ?_, ?_⟩
  · intro c hc hv
    exact h3 c hc hv
  · exact h1
  · intro c
    exact (sortByName_perm (getCommands env).1).mem_iff

/-- Witness of the amended C15: the visible built-in `login` is filed under `Other`. -/
theorem execMain_listing_category_witness :
    ∃ vs, ("Other", vs) ∈ (execMain bareCollaborators (fun _ => none)).allCommands ∧
      copySubcommands { Name := "login", Category := "Other", Subcommands := [] } ∈ vs :=
  (execMain_listing_category bareCollaborators (fun _ => none)).1
    { Name := "login", Category := "Other", Subcommands := [] }
    (by simp [getCommands, ConvertEmbeddedPlugin, bareCollaborators, cliNameSpaces,
      otherCategory, normalizeApp])
    rfl

theorem normalizeCategory_idem (ns : Namespace) :
    normalizeCategory (normalizeCategory ns) = normalizeCategory ns := by
  unfold normalizeCategory
  by_cases h : ns.Category = ""
  · simp [h, otherCategory]
  · simp [h]

theorem ConvertEmbeddedPlugin_of_eq (convert : App → CommandsResult) (app : App)
    (cs : List Command) (e : Option String) (hc : convert (normalizeApp app) = (cs, e)) :
    ConvertEmbeddedPlugin convert app =
      (cs, e.map (fun msg => "failed adding \x27" ++ app.Name ++
        "\x27 embedded plugin commands. Last error: " ++ msg)) := by
  simp only [ConvertEmbeddedPlugin]
  rw [hc]
  cases e with
  | none => rfl
  | some msg => rfl

/-- C16: `ConvertEmbeddedPlugin` hands to the converter the plugin with the same fields and
the same top-level subcommands in the same order, each with a category that is not empty:
`Other` where it was empty, unchanged otherwise, and with every other field, nested
subcommands included, unchanged; normalizing twice is normalizing once. -/
theorem ConvertEmbeddedPlugin_normalizes_first (convert : App → CommandsResult) (app : App) :
    (ConvertEmbeddedPlugin convert app).1 = (convert (normalizeApp app)).1 ∧
      (normalizeApp app).Name = app.Name ∧
      (normalizeApp app).Description = app.Description ∧
      (normalizeApp app).Version = app.Version ∧
      (normalizeApp app).Commands = app.Commands ∧
      (normalizeApp app).Subcommands.length = app.Subcommands.length ∧
      (∀ (i : Nat) (ns : Namespace), app.Subcommands[i]? = some ns →
        ∃ ns', (normalizeApp app).Subcommands[i]? = some ns' ∧
          ns'.Category ≠ "" ∧
          ns'.Category = (if ns.Category = "" then "Other" else ns.Category) ∧
          ns'.Name = ns.Name ∧ ns'.Description = ns.Description ∧
          ns'.Hidden = ns.Hidden ∧ ns'.Commands = ns.Commands ∧
          ns'.Subcommands = ns.Subcommands) ∧
      normalizeApp (normalizeApp app) = normalizeApp app := by
  refine ⟨?_, rfl, rfl, rfl, rfl, by simp [normalizeApp], ?_, ?_⟩
  · cases hc : convert (normalizeApp app) with
    | mk cs e => rw [ConvertEmbeddedPlugin_of_eq convert app cs e hc]
  · intro i ns hi
    refine ⟨normalizeCategory ns, by simp [normalizeApp, hi], ?_⟩
    unfold normalizeCategory
    by_cases h : ns.Category = ""
    · simp [h, otherCategory]
    · simp [h]
  · simp [normalizeApp, normalizeCategory_idem]

/-- Witness of C16: in the sample plugin the namespace `audit`, built without a category,
reaches the converter with the category `Other` and its nested namespace untouched. -/
theorem ConvertEmbeddedPlugin_normalizes_first_witness :
    ∃ ns', (normalizeApp samplePlugin).Subcommands[0]? = some ns' ∧
      ns'.Category ≠ "" ∧
      ns'.Category =
        (if ({ Name := "audit", Subcommands := [ { Name := "deep", Subcommands := [] } ] } :
          Namespace).Category = "" then "Other"
         else ({ Name := "audit", Subcommands := [ { Name := "deep", Subcommands := [] } ] } :
          Namespace).Category) ∧
      ns'.Name = "audit" ∧ ns'.Description = "" ∧ ns'.Hidden = false ∧ ns'.Commands = [] ∧
      ns'.Subcommands = [ { Name := "deep", Subcommands := [] } ] :=
  (ConvertEmbeddedPlugin_normalizes_first (fun _ => ([], none)) samplePlugin).2.2.2.2.2.2.1 0
    { Name := "audit", Subcommands := [ { Name := "deep", Subcommands := [] } ] } rfl

/-- C17: `ConvertEmbeddedPlugin` returns an error exactly when the framework's conversion
(of the normalized plugin) returns one; the message is then
`failed adding '<plugin name>' embedded plugin commands. Last error: <underlying message>`;
on success the converter's output is returned with a nil error. -/
theorem ConvertEmbeddedPlugin_error (convert : App → CommandsResult) (app : App) :
    ((ConvertEmbeddedPlugin convert app).2 ≠ none ↔ (convert (normalizeApp app)).2 ≠ none) ∧
      (∀ msg, (convert (normalizeApp app)).2 = some msg →
        (ConvertEmbeddedPlugin convert app).2 =
          some ("failed adding \x27" ++ app.Name ++
            "\x27 embedded plugin commands. Last error: " ++ msg)) ∧
      ((convert (normalizeApp app)).2 = none →
        ConvertEmbeddedPlugin convert app = ((convert (normalizeApp app)).1, none)) := by
  cases hc : convert (normalizeApp app) with
  | mk cs e =>
    rw [ConvertEmbeddedPlugin_of_eq convert app cs e hc]
    cases e with
    | none => simp
    | some msg =>
      refine ⟨by simp, ?_, by simp⟩
      intro m hm
      have : msg = m := by simpa using hm
      subst this
      rfl

/-- Witness of C17: the conversion of the plugin `security` fails with `boom`. -/
theorem ConvertEmbeddedPlugin_error_witness :
    (ConvertEmbeddedPlugin (fun _ => ([], some "boom")) samplePlugin).2 =
      some "failed adding \x27security\x27 embedded plugin commands. Last error: boom" :=
  ((ConvertEmbeddedPlugin_error (fun _ => ([], some "boom")) samplePlugin).2.1 "boom"
    rfl).trans (by decide)

/-- C18 on the code: when the conversion of the embedded plugin fails, `getCommands`
returns no command and the wrapped error, and `execMain` goes on: it installs the empty
command list, runs the application on it and returns what the run returns, here nil. -/
theorem execMain_runs_after_conversion_failure :
    getCommands failingCollaborators =
        ([], some "failed adding \x27security\x27 embedded plugin commands. Last error: boom") ∧
      (execMain failingCollaborators (fun _ => none)).Commands = [] ∧
      (execMain failingCollaborators (fun _ => none)).err = none ∧
      ∀ appRun : List Command → Option String,
        (execMain failingCollaborators appRun).err = appRun [] := by
  refine ⟨?_, rfl, rfl, fun _ => rfl⟩
  have h : (getCommands failingCollaborators).2 =
      some "failed adding \x27security\x27 embedded plugin commands. Last error: boom" := by
    decide
  have h1 : (getCommands failingCollaborators).1 = [] := rfl
  exact Prod.ext h1 h

/-! ## Claims about `splitAgentNameAndVersion` and `summaryPrintError` -/

theorem stringsLastIndex_slash_none (l : List Char) :
    stringsLastIndex ['/'] l = none ↔ '/' ∉ l := by
  induction l with
  | nil => simp [stringsLastIndex]
  | cons c t ih =>
    rw [stringsLastIndex]
    cases ht : stringsLastIndex ['/'] t with
    | some j =>
      have : '/' ∈ t := by
        by_contra hn
        rw [ih.mpr hn] at ht
        cases ht
      simp [this]
    | none =>
      have hnt : '/' ∉ t := ih.mp ht
      by_cases hc : c = '/'
      · simp [hc]
      · have hc' : ¬ '/' = c := fun e => hc e.symm
        simp [hc, hc', hnt]

theorem stringsLastIndex_slash_some (l : List Char) :
    ∀ i, stringsLastIndex ['/'] l = some i →
      l.take i ++ '/' :: l.drop (i + 1) = l ∧ '/' ∉ l.drop (i + 1) := by
  induction l with
  | nil => intro i h; simp [stringsLastIndex] at h
  | cons c t ih =>
    intro i h
    rw [stringsLastIndex] at h
    cases ht : stringsLastIndex ['/'] t with
    | some j =>
      rw [ht] at h
      have hi : j + 1 = i := by simpa using h
      subst hi
      obtain ⟨h1, h2⟩ := ih j ht
      refine ⟨?_, by simpa using h2⟩
      simp only [List.take_succ_cons, List.drop_succ_cons, List.cons_append]
      rw [h1]
    | none =>
      rw [ht] at h
      have hnt : '/' ∉ t := (stringsLastIndex_slash_none t).mp ht
      by_cases hc : c = '/'
      · have hi : 0 = i := by simpa [hc] using h
        subst hi
        simp [hc, hnt]
      · simp [hc] at h
        exact absurd h.1.symm hc

theorem stringsLastIndex_slash_append (n v : List Char) (hv : '/' ∉ v) :
    stringsLastIndex ['/'] (n ++ '/' :: v) = some n.length := by
  induction n with
  | nil =>
    rw [List.nil_append, stringsLastIndex, (stringsLastIndex_slash_none v).mpr hv]
    simp
  | cons c n ih =>
    rw [List.cons_append, stringsLastIndex, ih]
    rfl

/-- C19: `splitAgentNameAndVersion` splits at the last slash: a string without `/` gives
the string and `""`; a string with `/` gives a name and a version such that name, `/` and
version make up the string and the version holds no `/`; so a name followed by `/` and a
version without `/` is split into that name and that version. -/
theorem splitAgentNameAndVersion_last_slash (s : String) :
    ('/' ∉ s.data → splitAgentNameAndVersion s = (s, "")) ∧
      ('/' ∈ s.data →
        (splitAgentNameAndVersion s).1 ++ "/" ++ (splitAgentNameAndVersion s).2 = s ∧
          '/' ∉ (splitAgentNameAndVersion s).2.data) ∧
      (∀ name version : String, '/' ∉ version.data →
        splitAgentNameAndVersion (name ++ "/" ++ version) = (name, version)) := by
  have hsep : "/".data = ['/'] := rfl
  refine ⟨?_, ?_, ?_⟩
  · intro h
    unfold splitAgentNameAndVersion
    rw [hsep, (stringsLastIndex_slash_none s.data).mpr h]
  · intro h
    unfold splitAgentNameAndVersion
    rw [hsep]
    cases hi : stringsLastIndex ['/'] s.data with
    | none => exact absurd h ((stringsLastIndex_slash_none s.data).mp hi)
    | some i =>
      obtain ⟨h1, h2⟩ := stringsLastIndex_slash_some s.data i hi
      refine ⟨?_, h2⟩
      apply String.ext
      simp only [String.data_append, hsep]
      simpa using h1
  · intro name version hv
    unfold splitAgentNameAndVersion
    have hd : (name ++ "/" ++ version).data = name.data ++ '/' :: version.data := by
      simp [String.data_append, hsep]
    rw [hsep, hd, stringsLastIndex_slash_append name.data version.data hv]
    have h1 : List.take name.data.length (name.data ++ '/' :: version.data) = name.data :=
      List.take_left' rfl
    have h2 : List.drop (name.data.length + 1) (name.data ++ '/' :: version.data) =
        version.data := by
      rw [← List.drop_drop, List.drop_left' rfl]
      rfl
    show ((⟨List.take name.data.length (name.data ++ '/' :: version.data)⟩ : String),
      (⟨List.drop (name.data.length + 1) (name.data ++ '/' :: version.data)⟩ : String)) =
      (name, version)
    rw [h1, h2]

/-- Witness of C19: `jfrog-cli-go/2.0.0` is split into `jfrog-cli-go` and `2.0.0`, and a
name that holds a slash keeps it. -/
theorem splitAgentNameAndVersion_last_slash_witness :
    splitAgentNameAndVersion ("jfrog-cli-go" ++ "/" ++ "2.0.0") = ("jfrog-cli-go", "2.0.0") ∧
      splitAgentNameAndVersion ("a/b" ++ "/" ++ "1.2") = ("a/b", "1.2") ∧
      splitAgentNameAndVersion "jfrog" = ("jfrog", "") :=
  ⟨(splitAgentNameAndVersion_last_slash "").2.2 "jfrog-cli-go" "2.0.0" (by decide),
   (splitAgentNameAndVersion_last_slash "").2.2 "a/b" "1.2" (by decide),
   (splitAgentNameAndVersion_last_slash "jfrog").1 (by decide)⟩

/-- C20: `summaryPrintError` returns the original error whenever it is not nil, whatever
the summary error, and the summary error when the original error is nil; the result is nil
exactly when both are nil. -/
theorem summaryPrintError_result (summaryError originalError : Option String) :
    (originalError ≠ none → (summaryPrintError summaryError originalError).1 = originalError) ∧
      (originalError = none →
        (summaryPrintError summaryError originalError).1 = summaryError) ∧
      ((summaryPrintError summaryError originalError).1 = none ↔
        summaryError = none ∧ originalError = none) := by
  cases originalError with
  | none => simp [summaryPrintError]
  | some e => simp [summaryPrintError]

/-- Witness of C20: with both errors set the original one is returned (and the summary error
is logged); with the summary error alone, that one is returned. -/
theorem summaryPrintError_result_witness :
    (summaryPrintError (some "summary") (some "original")).1 = some "original" ∧
      (summaryPrintError (some "summary") none).1 = some "summary" :=
  ⟨(summaryPrintError_result (some "summary") (some "original")).1 (by decide),
   (summaryPrintError_result (some "summary") none).2.1 rfl⟩

/-! ## Claims about `CreateServerDetailsWithConfigOffer` -/

theorem createServerDetailsFromFlagsOfDomain_serverId (fn : FlagNames) (c : Context)
    (domain : CommanDomain) :
    (createServerDetailsFromFlagsOfDomain fn c domain).ServerId = c.stringFlag fn.serverId ∧
      (createServerDetailsFromFlagsOfDomain fn c domain).InsecureTls =
        c.boolFlag fn.InsecureTls := by
  unfold createServerDetailsFromFlagsOfDomain CreateServerDetailsFromFlags
  simp only []
  split_ifs <;> exact ⟨rfl, rfl⟩

theorem CreateServerDetailsWithConfigOffer_of_no_offer (env : ConfigCollaborators)
    (fn : FlagNames) (c : Context) (excl : Bool) (domain : CommanDomain)
    (hoffer : offerConfig env fn c domain = (none, none)) :
    CreateServerDetailsWithConfigOffer env fn c excl domain =
      if credentialsChanged (createServerDetailsFromFlagsOfDomain fn c domain) then
        (some (createServerDetailsFromFlagsOfDomain fn c domain), none)
      else
        match env.getConfig (c.stringFlag fn.serverId) excl with
        | .error e => (none, some e)
        | .ok confDetails =>
            if !excl then
              match env.createInitialRefreshableTokensIfNeeded
                { confDetails with
                  InsecureTls := c.boolFlag fn.InsecureTls,
                  Url := AddTrailingSlashIfNeeded confDetails.Url,
                  DistributionUrl := AddTrailingSlashIfNeeded confDetails.DistributionUrl } with
              | (_, some e) => (none, some e)
              | (confDetails, none) => (some confDetails, none)
            else
              (some { confDetails with
                InsecureTls := c.boolFlag fn.InsecureTls,
                Url := AddTrailingSlashIfNeeded confDetails.Url,
                DistributionUrl := AddTrailingSlashIfNeeded confDetails.DistributionUrl },
               none) := by
  simp only [CreateServerDetailsWithConfigOffer]
  rw [hoffer]
  simp only [ne_eq, not_true_eq_false, if_false,
    (createServerDetailsFromFlagsOfDomain_serverId fn c domain).1,
    (createServerDetailsFromFlagsOfDomain_serverId fn c domain).2]

/-- When no configuration is offered and `credentialsChanged` holds of the details built
from the options, the result is exactly these details, whatever the stored configuration
is. -/
theorem CreateServerDetailsWithConfigOffer_options_used (env : ConfigCollaborators)
    (fn : FlagNames) (c : Context) (excl : Bool) (domain : CommanDomain)
    (hoffer : offerConfig env fn c domain = (none, none))
    (hch : credentialsChanged (createServerDetailsFromFlagsOfDomain fn c domain) = true) :
    CreateServerDetailsWithConfigOffer env fn c excl domain =
      (some (createServerDetailsFromFlagsOfDomain fn c domain), none) := by
  rw [CreateServerDetailsWithConfigOffer_of_no_offer env fn c excl domain hoffer, hch]
  rfl

/-- C21 on the code: with the Pipelines URL, or the Mission Control URL, as the only
command option and no configuration offered, a URL was passed as an option and the details
built from the options hold it, yet `credentialsChanged` is false of them and the result is
the stored server's details, in which the option is lost; the comment above the test says
that URLs passed as options are used as they are.  With the Artifactory URL passed the same
call returns the details of the options. -/
theorem CreateServerDetailsWithConfigOffer_ignores_pipelines_url :
    offerConfig storedConfig sampleFlagNames
        (contextWith "pipelines-url" "https://pl.example") Rt = (none, none) ∧
      credentialOptionPassed sampleFlagNames
        (contextWith "pipelines-url" "https://pl.example") ∧
      createServerDetailsFromFlagsOfDomain sampleFlagNames
        (contextWith "pipelines-url" "https://pl.example") Rt =
          { PipelinesUrl := "https://pl.example/" } ∧
      credentialsChanged (createServerDetailsFromFlagsOfDomain sampleFlagNames
        (contextWith "pipelines-url" "https://pl.example") Rt) = false ∧
      CreateServerDetailsWithConfigOffer storedConfig sampleFlagNames
        (contextWith "pipelines-url" "https://pl.example") true Rt =
          (some { ArtifactoryUrl := "https://stored.example/", User := "stored" }, none) ∧
      CreateServerDetailsWithConfigOffer storedConfig sampleFlagNames
        (contextWith "mission-control-url" "https://mc.example") true Rt =
          (some { ArtifactoryUrl := "https://stored.example/", User := "stored" }, none) ∧
      CreateServerDetailsWithConfigOffer storedConfig sampleFlagNames
        (contextWith "url" "https://rt.example") true Rt =
          (some { ArtifactoryUrl := "https://rt.example/" }, none) := by
  refine ⟨by decide, ?_, by decide, by decide, by decide, by decide, by decide⟩
  unfold credentialOptionPassed
  decide

/-! ## Claims about `generateTraceIdToken` -/

theorem hexDigit_mem (n : Fin 16) : hexDigit n.val ∈ "0123456789abcdef".data := by
  revert n
  decide

theorem hexDigit_injective (m n : Fin 16) (h : hexDigit m.val = hexDigit n.val) : m = n := by
  revert m n
  decide

theorem hexEncodeToString_length (buf : List (Fin 256)) :
    (hexEncodeToString buf).data.length = 2 * buf.length := by
  unfold hexEncodeToString
  induction buf with
  | nil => rfl
  | cons b buf ih =>
    simp only [List.flatMap_cons, List.length_append, List.length_cons, List.length_nil]
    simp only [] at ih
    omega

theorem hexEncodeToString_digits (buf : List (Fin 256)) :
    ∀ ch ∈ (hexEncodeToString buf).data, ch ∈ "0123456789abcdef".data := by
  unfold hexEncodeToString
  intro ch hch
  simp only [List.mem_flatMap, List.mem_cons, List.mem_singleton, List.not_mem_nil,
    or_false] at hch
  obtain ⟨b, _, hb⟩ := hch
  rcases hb with rfl | rfl
  · exact hexDigit_mem ⟨b.val / 16, by omega⟩
  · exact hexDigit_mem ⟨b.val % 16, by omega⟩

theorem hexEncodeToString_injective (buf buf' : List (Fin 256))
    (h : hexEncodeToString buf = hexEncodeToString buf') : buf = buf' := by
  have hd : buf.flatMap (fun b => [hexDigit (b.val / 16), hexDigit (b.val % 16)]) =
      buf'.flatMap (fun b => [hexDigit (b.val / 16), hexDigit (b.val % 16)]) := by
    have := congrArg String.data h
    simpa [hexEncodeToString] using this
  clear h
  induction buf generalizing buf' with
  | nil =>
    cases buf' with
    | nil => rfl
    | cons b' buf' => simp at hd
  | cons b buf ih =>
    cases buf' with
    | nil => simp at hd
    | cons b' buf' =>
      simp only [List.flatMap_cons, List.cons_append, List.nil_append, List.cons.injEq] at hd
      obtain ⟨h1, h2, h3⟩ := hd
      have e1 := hexDigit_injective ⟨b.val / 16, by omega⟩ ⟨b'.val / 16, by omega⟩ h1
      have e2 := hexDigit_injective ⟨b.val % 16, by omega⟩ ⟨b'.val % 16, by omega⟩ h2
      have e1' : b.val / 16 = b'.val / 16 := by simpa using congrArg Fin.val e1
      have e2' : b.val % 16 = b'.val % 16 := by simpa using congrArg Fin.val e2
      have hb : b = b' := by
        apply Fin.ext
        omega
      rw [hb, ih buf' h3]

/-- C22: when the random source succeeds, `generateTraceIdToken` returns, with a nil error,
the hexadecimal encoding of the 8 bytes read: 16 characters, each a lower-case hexadecimal
digit; different byte sequences give different tokens. -/
theorem generateTraceIdToken_hex (bytes : Fin 8 → Fin 256) :
    generateTraceIdToken (.ok bytes) = (hexEncodeToString (List.ofFn bytes), none) ∧
      (generateTraceIdToken (.ok bytes)).1.length = 16 ∧
      (∀ ch ∈ (generateTraceIdToken (.ok bytes)).1.data, ch ∈ "0123456789abcdef".data) ∧
      (∀ bytes' : Fin 8 → Fin 256,
        (generateTraceIdToken (.ok bytes')).1 = (generateTraceIdToken (.ok bytes)).1 →
        bytes' = bytes) := by
  refine ⟨rfl, ?_, ?_, ?_⟩
  · show (hexEncodeToString (List.ofFn bytes)).data.length = 16
    rw [hexEncodeToString_length, List.length_ofFn]
  · exact hexEncodeToString_digits (List.ofFn bytes)
  · intro bytes' h
    exact List.ofFn_injective (hexEncodeToString_injective _ _ h)

/-- Witness of C22: the bytes 0, 37, 74, … give the token `00254a6f94b9de03`. -/
theorem generateTraceIdToken_hex_witness :
    generateTraceIdToken (.ok (fun i => ⟨i.val * 37 % 256, by omega⟩)) =
      ("00254a6f94b9de03", none) :=
  (generateTraceIdToken_hex (fun i => ⟨i.val * 37 % 256, by omega⟩)).1.trans (by decide)

/-! ## Claims about `OverrideFieldsIfSet` -/

theorem intercalate_go_data (s : String) (l : List String) :
    ∀ acc : String, (String.intercalate.go acc s l).data =
      acc.data ++ (l.map (fun a => s.data ++ a.data)).flatten := by
  induction l with
  | nil => intro acc; simp [String.intercalate.go]
  | cons a l ih =>
    intro acc
    rw [String.intercalate.go, ih]
    simp [String.data_append, List.append_assoc]

theorem stringsSplit_join (sep : Char) (l : List Char) :
    ∃ p ps, stringsSplit sep l = p :: ps ∧ p ++ (ps.map (fun q => sep :: q)).flatten = l := by
  induction l with
  | nil => exact ⟨[], [], rfl, rfl⟩
  | cons c t ih =>
    obtain ⟨p, ps, h1, h2⟩ := ih
    rw [stringsSplit, h1]
    by_cases hc : c = sep
    · rw [if_pos hc]
      refine ⟨[], p :: ps, rfl, ?_⟩
      simp [h2, hc]
    · rw [if_neg hc]
      exact ⟨c :: p, ps, rfl, by simp [h2]⟩

theorem foldl_append_singleton (l : List String) :
    ∀ acc : List String, l.foldl (fun field singleValue => field ++ [singleValue]) acc =
      acc ++ l := by
  induction l with
  | nil => intro acc; simp
  | cons a l ih => intro acc; rw [List.foldl_cons, ih]; simp

/-- The array written by `overrideArrayIfSet` is the pieces of the flag's string, and joined
with `;` it is the flag's string. -/
theorem overrideArrayIfSet_set (field : List String) (c : Context) (fieldName : String)
    (h : c.isSet fieldName = true) :
    overrideArrayIfSet field c fieldName =
        (stringsSplit ';' (c.stringFlag fieldName).data).map String.mk ∧
      ";".intercalate (overrideArrayIfSet field c fieldName) = c.stringFlag fieldName := by
  have h1 : overrideArrayIfSet field c fieldName =
      (stringsSplit ';' (c.stringFlag fieldName).data).map String.mk := by
    rw [overrideArrayIfSet, if_pos h, foldl_append_singleton, List.nil_append]
  refine ⟨h1, ?_⟩
  rw [h1]
  obtain ⟨p, ps, hs, hj⟩ := stringsSplit_join ';' (c.stringFlag fieldName).data
  rw [hs]
  apply String.ext
  rw [List.map_cons, String.intercalate, intercalate_go_data, ← hj]
  congr 1
  simp [List.map_map, Function.comp_def]

/-- C23: `OverrideFieldsIfSet` leaves a field whose flag is not set as it was, and a field
without a flag as well; a string or int field whose flag is set takes the flag's value; the
arrays `Exclusions` and `SortBy` whose flag is set are replaced by the pieces of the flag's
string between the `;`, so that joined with `;` they give the flag's string back. -/
theorem OverrideFieldsIfSet_fields (spec : File) (c : Context) :
    (OverrideFieldsIfSet spec c).Aql = spec.Aql ∧
    (OverrideFieldsIfSet spec c).Pattern = spec.Pattern ∧
    (OverrideFieldsIfSet spec c).Target = spec.Target ∧
    (OverrideFieldsIfSet spec c).Exclusions =
      (if c.isSet "exclusions" then (stringsSplit ';' (c.stringFlag "exclusions").data).map String.mk
       else spec.Exclusions) ∧
    (c.isSet "exclusions" = true →
      ";".intercalate (OverrideFieldsIfSet spec c).Exclusions = c.stringFlag "exclusions") ∧
    (OverrideFieldsIfSet spec c).SortBy =
      (if c.isSet "sort-by" then (stringsSplit ';' (c.stringFlag "sort-by").data).map String.mk
       else spec.SortBy) ∧
    (c.isSet "sort-by" = true →
      ";".intercalate (OverrideFieldsIfSet spec c).SortBy = c.stringFlag "sort-by") ∧
    (OverrideFieldsIfSet spec c).Offset =
      (if c.isSet "offset" then c.intFlag "offset" else spec.Offset) ∧
    (OverrideFieldsIfSet spec c).Limit =
      (if c.isSet "limit" then c.intFlag "limit" else spec.Limit) ∧
    (OverrideFieldsIfSet spec c).SortOrder =
      (if c.isSet "sort-order" then c.stringFlag "sort-order" else spec.SortOrder) ∧
    (OverrideFieldsIfSet spec c).Props =
      (if c.isSet "props" then c.stringFlag "props" else spec.Props) ∧
    (OverrideFieldsIfSet spec c).TargetProps =
      (if c.isSet "target-props" then c.stringFlag "target-props" else spec.TargetProps) ∧
    (OverrideFieldsIfSet spec c).ExcludeProps =
      (if c.isSet "exclude-props" then c.stringFlag "exclude-props" else spec.ExcludeProps) ∧
    (OverrideFieldsIfSet spec c).Build =
      (if c.isSet "build" then c.stringFlag "build" else spec.Build) ∧
    (OverrideFieldsIfSet spec c).Project =
      (if c.isSet "project" then c.stringFlag "project" else spec.Project) ∧
    (OverrideFieldsIfSet spec c).ExcludeArtifacts =
      (if c.isSet "exclude-artifacts" then c.stringFlag "exclude-artifacts"
       else spec.ExcludeArtifacts) ∧
    (OverrideFieldsIfSet spec c).IncludeDeps =
      (if c.isSet "include-deps" then c.stringFlag "include-deps" else spec.IncludeDeps) ∧
    (OverrideFieldsIfSet spec c).Bundle =
      (if c.isSet "bundle" then c.stringFlag "bundle" else spec.Bundle) ∧
    (OverrideFieldsIfSet spec c).Recursive =
      (if c.isSet "recursive" then c.stringFlag "recursive" else spec.Recursive) ∧
    (OverrideFieldsIfSet spec c).Flat =
      (if c.isSet "flat" then c.stringFlag "flat" else spec.Flat) ∧
    (OverrideFieldsIfSet spec c).Explode =
      (if c.isSet "explode" then c.stringFlag "explode" else spec.Explode) ∧
    (OverrideFieldsIfSet spec c).Regexp =
      (if c.isSet "regexp" then c.stringFlag "regexp" else spec.Regexp) ∧
    (OverrideFieldsIfSet spec c).IncludeDirs =
      (if c.isSet "include-dirs" then c.stringFlag "include-dirs" else spec.IncludeDirs) ∧
    (OverrideFieldsIfSet spec c).ValidateSymlinks =
      (if c.isSet "validate-symlinks" then c.stringFlag "validate-symlinks"
       else spec.ValidateSymlinks) ∧
    (OverrideFieldsIfSet spec c).Symlinks =
      (if c.isSet "symlinks" then c.stringFlag "symlinks" else spec.Symlinks) ∧
    (OverrideFieldsIfSet spec c).Transitive =
      (if c.isSet "transitive" then c.stringFlag "transitive" else spec.Transitive) ∧
    (OverrideFieldsIfSet spec c).PublicGpgKey =
      (if c.isSet "gpg-key" then c.stringFlag "gpg-key" else spec.PublicGpgKey) := by
  have hex : (OverrideFieldsIfSet spec c).Exclusions =
      overrideArrayIfSet spec.Exclusions c "exclusions" := rfl
  have hsb : (OverrideFieldsIfSet spec c).SortBy =
      overrideArrayIfSet spec.SortBy c "sort-by" := rfl
  refine ⟨rfl, rfl, rfl, ?_, ?_, ?_, ?_, rfl, rfl, rfl, rfl, rfl, rfl, rfl, rfl, rfl, rfl, rfl,
    rfl, rfl, rfl, rfl, rfl, rfl, rfl, rfl, rfl⟩
  · rw [hex]
    by_cases h : c.isSet "exclusions" = true
    · rw [if_pos h, (overrideArrayIfSet_set spec.Exclusions c "exclusions" h).1]
    · rw [if_neg h, overrideArrayIfSet, if_neg h]
  · intro h
    rw [hex]
    exact (overrideArrayIfSet_set spec.Exclusions c "exclusions" h).2
  · rw [hsb]
    by_cases h : c.isSet "sort-by" = true
    · rw [if_pos h, (overrideArrayIfSet_set spec.SortBy c "sort-by" h).1]
    · rw [if_neg h, overrideArrayIfSet, if_neg h]
  · intro h
    rw [hsb]
    exact (overrideArrayIfSet_set spec.SortBy c "sort-by" h).2

/-- Witness of C23: with `--exclusions "a;b;;c"` the two old exclusions are replaced by the
four pieces, which joined with `;` give the flag's string; the pattern stays. -/
theorem OverrideFieldsIfSet_fields_witness :
    (OverrideFieldsIfSet { Pattern := "repo/*", Exclusions := ["old1", "old2"] }
        (contextWith "exclusions" "a;b;;c")).Exclusions = ["a", "b", "", "c"] ∧
      ";".intercalate (OverrideFieldsIfSet { Pattern := "repo/*", Exclusions := ["old1", "old2"] }
        (contextWith "exclusions" "a;b;;c")).Exclusions = "a;b;;c" ∧
      (OverrideFieldsIfSet { Pattern := "repo/*", Exclusions := ["old1", "old2"] }
        (contextWith "exclusions" "a;b;;c")).Pattern = "repo/*" :=
  have h := OverrideFieldsIfSet_fields { Pattern := "repo/*", Exclusions := ["old1", "old2"] }
    (contextWith "exclusions" "a;b;;c")
  ⟨h.2.2.2.1.trans (by decide), h.2.2.2.2.1 (by decide), h.2.1⟩

/-! ## Depth of the exact-match scan, and the displayed text -/

theorem exactSubcommand_strip (tok : String) (subs : List Command) :
    exactSubcommand tok (subs.map (fun s => { s with Subcommands := [] })) =
      exactSubcommand tok subs := by
  induction subs with
  | nil => rfl
  | cons s subs ih =>
    rw [List.map_cons, exactSubcommand, exactSubcommand, ih]
    rfl

theorem searchLoop_withoutDepth3 (tok : String) (cmds : List Command) :
    ∀ (d : Nat) (best : List String),
      searchLoop tok (withoutDepth3 cmds) d best = searchLoop tok cmds d best := by
  induction cmds with
  | nil => intro d best; rfl
  | cons c cmds ih =>
    intro d best
    have hw : withoutDepth3 (c :: cmds) =
        { c with Subcommands := c.Subcommands.map (fun s => { s with Subcommands := [] }) } ::
          withoutDepth3 cmds := rfl
    rw [hw, searchLoop, searchLoop]
    have he : exactSubcommand tok
        ({ c with Subcommands := c.Subcommands.map (fun s => { s with Subcommands := [] }) } :
          Command).Subcommands = exactSubcommand tok c.Subcommands :=
      exactSubcommand_strip tok c.Subcommands
    rw [he]
    cases exactSubcommand tok c.Subcommands with
    | some n => rfl
    | none =>
      simp only []
      rw [ih]
      rfl

/-- C24: the exact-match scan reads the direct subcommands only: the result is the same on
the registry without its commands of depth 3; so for a token that is an invocation name
of a command of depth 3 and of no direct subcommand there is no early return, and the
result is the top-level similarity list. -/
theorem searchSimilarCmds_depth2_only (cmds : List Command) (tok : String) :
    searchSimilarCmds cmds tok = searchSimilarCmds (withoutDepth3 cmds) tok ∧
      ((∃ c ∈ cmds, ∃ s ∈ c.Subcommands, ∃ d ∈ s.Subcommands, tok ∈ d.Names) →
        (∀ c ∈ cmds, ∀ s ∈ c.Subcommands, tok ∉ s.Names) →
        searchSimilarCmds cmds tok =
          ((candidates cmds).filter
            (fun p => ComputeDistance p.2 tok = finalDistance cmds tok)).map suggestion) :=
  ⟨(searchLoop_withoutDepth3 tok cmds 2 []).symm,
   fun _ hsub => searchSimilarCmds_eq_filter cmds tok hsub⟩

/-- Witness of C24: `scan` is a command of depth 3 under `rt repo`; the token `scan` gives
no `rt scan`, only what the top-level names give, here nothing. -/
theorem searchSimilarCmds_depth2_only_witness :
    searchSimilarCmds
        [mkCommand "rt" [] [mkCommand "repo" [] [mkCommand "scan" [] []]]] "scan" =
      searchSimilarCmds [mkCommand "rt" [] [mkCommand "repo" [] []]] "scan" ∧
    searchSimilarCmds
        [mkCommand "rt" [] [mkCommand "repo" [] [mkCommand "scan" [] []]]] "scan" = [] :=
  have h := searchSimilarCmds_depth2_only
    [mkCommand "rt" [] [mkCommand "repo" [] [mkCommand "scan" [] []]]] "scan"
  ⟨h.1.trans (by decide),
   (h.2 ⟨mkCommand "rt" [] [mkCommand "repo" [] [mkCommand "scan" [] []]], by simp,
      mkCommand "repo" [] [mkCommand "scan" [] []], by simp [mkCommand],
      mkCommand "scan" [] [], by simp [mkCommand], by decide⟩ (by decide)).trans (by decide)⟩

theorem sortStrings_perm (l : List String) : (sortStrings l).Perm l :=
  List.perm_insertionSort _ l

theorem sortStrings_sorted (l : List String) :
    List.Sorted (fun a b : String => a ≤ b) (sortStrings l) := by
  have : List.Sorted (fun a b : String => a.data ≤ b.data) (sortStrings l) := by
    have _i1 : IsTotal String (fun a b : String => a.data ≤ b.data) :=
      ⟨fun a b => le_total a.data b.data⟩
    have _i2 : IsTrans String (fun a b : String => a.data ≤ b.data) :=
      ⟨fun _ _ _ h1 h2 => le_trans h1 h2⟩
    exact List.sorted_insertionSort _ l
  exact List.Pairwise.imp (fun h => String.le_iff_toList_le.mpr h) this

theorem intercalate_lines (sep : String) (a : String) (l : List String) :
    sep ++ sep.intercalate (a :: l) = String.join ((a :: l).map (fun e => sep ++ e)) := by
  apply String.ext
  rw [String.intercalate, String.data_append, intercalate_go_data, String.data_join]
  simp [String.data_append, List.map_map, Function.comp_def]

/-- C25: the suggestion text of the command-not-found handler: none for an empty result;
for one entry `e` the sentence `The most similar command is:` and the line `\tjf e`; for more
entries the sentence `The most similar commands are:` and one line `\tjf <entry>` for each
entry of the result sorted in lexicographic order, a permutation of the result. -/
theorem similarityText_display (bestSimilarity : List String) :
    (bestSimilarity = [] → similarityText bestSimilarity = none) ∧
      (∀ e, bestSimilarity = [e] →
        similarityText bestSimilarity = some ("The most similar command is:" ++ ("\n\tjf " ++ e))) ∧
      (2 ≤ bestSimilarity.length →
        similarityText bestSimilarity =
            some ("The most similar commands are:" ++
              String.join ((sortStrings bestSimilarity).map (fun e => "\n\tjf " ++ e))) ∧
          (sortStrings bestSimilarity).Perm bestSimilarity ∧
          List.Sorted (fun a b : String => a ≤ b) (sortStrings bestSimilarity)) := by
  refine ⟨?_, ?_, ?_⟩
  · intro h
    rw [h]
    rfl
  · intro e h
    rw [h]
    show some ("The most similar " ++ ("command is:\n\tjf " ++ e)) = _
    congr 1
  · intro h
    refine ⟨?_, sortStrings_perm _, sortStrings_sorted _⟩
    have hlen : (sortStrings bestSimilarity).length = bestSimilarity.length :=
      (sortStrings_perm bestSimilarity).length_eq
    have h0 : bestSimilarity.length > 0 := by omega
    have h1 : ¬ bestSimilarity.length = 1 := by omega
    rw [similarityText, if_pos h0, if_neg h1]
    cases hs : sortStrings bestSimilarity with
    | nil => rw [hs] at hlen; simp at hlen; omega
    | cons a l =>
      congr 1
      have hl := intercalate_lines "\n\tjf " a l
      apply String.ext
      have hd := congrArg String.data hl
      simp only [String.data_append] at hd ⊢
      rw [← hd]
      have e1 : "The most similar ".data ++ "commands are:\n\tjf ".data =
          "The most similar commands are:".data ++ "\n\tjf ".data := by decide
      rw [← List.append_assoc, e1, List.append_assoc]

/-- Witness of C25: one entry and two entries. -/
theorem similarityText_display_witness :
    similarityText ["config"] = some "The most similar command is:\n\tjf config" ∧
      similarityText ["rt", "c"] = some "The most similar commands are:\n\tjf c\n\tjf rt" :=
  ⟨((similarityText_display ["config"]).2.1 "config" rfl).trans (by decide),
   ((similarityText_display ["rt", "c"]).2.2 (by decide)).1.trans (by decide)⟩

/-! ## The listing of `execMain`, key by key -/

theorem mapLookup_mapAppend (m : List (String × List MyCommand)) (k : String)
    (v : MyCommand) (k' : String) :
    mapLookup (mapAppend m k v) k' =
      if k = k' then mapLookup m k' ++ [v] else mapLookup m k' := by
  induction m with
  | nil =>
    by_cases h : k = k'
    · simp [mapAppend, mapLookup, h]
    · simp [mapAppend, mapLookup, h]
  | cons p m ih =>
    obtain ⟨k0, v0⟩ := p
    rw [mapAppend]
    by_cases h0 : k0 = k
    · rw [if_pos h0]
      by_cases h : k = k'
      · have h1 : k0 = k' := h0.trans h
        simp [mapLookup, h, h1]
      · have h1 : ¬ k0 = k' := fun e => h (h0.symm.trans e)
        simp [mapLookup, h, h1]
    · rw [if_neg h0]
      by_cases h1 : k0 = k'
      · have h : ¬ k = k' := fun e => h0 (h1.trans e.symm)
        simp [mapLookup, h, h1]
      · simp only [mapLookup, if_neg h1]
        exact ih

theorem mapAppend_keys_eq (m : List (String × List MyCommand)) (k : String) (v : MyCommand) :
    (mapAppend m k v).map Prod.fst =
      if k ∈ m.map Prod.fst then m.map Prod.fst else m.map Prod.fst ++ [k] := by
  induction m with
  | nil => simp [mapAppend]
  | cons p m ih =>
    obtain ⟨k0, v0⟩ := p
    rw [mapAppend]
    by_cases h0 : k0 = k
    · simp [h0]
    · have h0' : ¬ k = k0 := fun e => h0 e.symm
      rw [if_neg h0, List.map_cons, ih]
      by_cases hk : k ∈ m.map Prod.fst
      · simp [hk]
      · simp [hk, h0']

theorem mapLookup_of_mem (m : List (String × List MyCommand))
    (hnd : (m.map Prod.fst).Nodup) (p : String × List MyCommand) (hp : p ∈ m) :
    p.2 = mapLookup m p.1 := by
  induction m with
  | nil => simp at hp
  | cons q m ih =>
    obtain ⟨k0, v0⟩ := q
    rw [List.map_cons, List.nodup_cons] at hnd
    rcases List.mem_cons.mp hp with he | hm
    · rw [he]
      simp [mapLookup]
    · have hne : ¬ k0 = p.1 := by
        intro e
        exact hnd.1 (List.mem_map.mpr ⟨p, hm, e.symm⟩)
      simp only [mapLookup, if_neg hne]
      exact ih hnd.2 hm

theorem listCommands_lookup (commands : List Command) :
    ∀ (m : List (String × List MyCommand)) (k : String),
      mapLookup (commands.foldl
          (fun allCommands com =>
            if com.Hidden then allCommands
            else
              mapAppend allCommands
                (if com.Category = "" then { com with Category := otherCategory }
                  else com).Category (copySubcommands com)) m) k =
        mapLookup m k ++
          (commands.filter (fun c => !c.Hidden && decide (categoryKey c = k))).map
            copySubcommands := by
  induction commands with
  | nil => intro m k; simp
  | cons com commands ih =>
    intro m k
    rw [List.foldl_cons, ih]
    by_cases hh : com.Hidden = true
    · simp [hh, List.filter_cons]
    · have hh' : com.Hidden = false := by simpa using hh
      rw [if_neg hh, listCommands_step_key, mapLookup_mapAppend]
      by_cases hk : categoryKey com = k
      · have hk' : (if com.Category = "" then otherCategory else com.Category) = k := hk
        simp [hk', hk, hh', List.filter_cons]
      · have hk' : ¬ (if com.Category = "" then otherCategory else com.Category) = k := hk
        simp [hk', hk, hh', List.filter_cons]

theorem listCommands_keys (commands : List Command) :
    ∀ (m : List (String × List MyCommand)),
      (m.map Prod.fst).Nodup →
      ((commands.foldl
          (fun allCommands com =>
            if com.Hidden then allCommands
            else
              mapAppend allCommands
                (if com.Category = "" then { com with Category := otherCategory }
                  else com).Category (copySubcommands com)) m).map Prod.fst).Nodup ∧
      ∀ k, k ∈ (commands.foldl
          (fun allCommands com =>
            if com.Hidden then allCommands
            else
              mapAppend allCommands
                (if com.Category = "" then { com with Category := otherCategory }
                  else com).Category (copySubcommands com)) m).map Prod.fst ↔
        (k ∈ m.map Prod.fst ∨ ∃ c ∈ commands, c.Hidden = false ∧ categoryKey c = k) := by
  induction commands with
  | nil => intro m hm; simpa using hm
  | cons com commands ih =>
    intro m hm
    rw [List.foldl_cons]
    by_cases hh : com.Hidden = true
    · rw [if_pos hh]
      obtain ⟨h1, h2⟩ := ih m hm
      refine ⟨h1, ?_⟩
      intro k
      rw [h2 k]
      simp [hh]
    · have hh' : com.Hidden = false := by simpa using hh
      rw [if_neg hh, listCommands_step_key]
      have hm' : ((mapAppend m (if com.Category = "" then otherCategory else com.Category)
          (copySubcommands com)).map Prod.fst).Nodup := by
        rw [mapAppend_keys_eq]
        by_cases hk : (if com.Category = "" then otherCategory else com.Category) ∈
            m.map Prod.fst
        · rw [if_pos hk]; exact hm
        · rw [if_neg hk]
          exact List.Nodup.append hm (List.nodup_singleton _) (by simpa using hk)
      obtain ⟨h1, h2⟩ := ih _ hm'
      refine ⟨h1, ?_⟩
      intro k
      rw [h2 k, mapAppend_keys_eq]
      have hck : categoryKey com = (if com.Category = "" then otherCategory else com.Category) :=
        rfl
      by_cases hk : (if com.Category = "" then otherCategory else com.Category) ∈ m.map Prod.fst
      · rw [if_pos hk]
        constructor
        · rintro (h | ⟨c, hc, hcv, hck'⟩)
          · exact Or.inl h
          · exact Or.inr ⟨c, List.mem_cons_of_mem _ hc, hcv, hck'⟩
        · rintro (h | ⟨c, hc, hcv, hck'⟩)
          · exact Or.inl h
          · rcases List.mem_cons.mp hc with rfl | hc
            · left; rw [← hck', hck]; exact hk
            · exact Or.inr ⟨c, hc, hcv, hck'⟩
      · rw [if_neg hk]
        constructor
        · rintro (h | ⟨c, hc, hcv, hck'⟩)
          · rcases List.mem_append.mp h with h | h
            · exact Or.inl h
            · right
              refine ⟨com, List.mem_cons_self _ _, hh', ?_⟩
              rw [hck]
              exact (List.mem_singleton.mp h).symm
          · exact Or.inr ⟨c, List.mem_cons_of_mem _ hc, hcv, hck'⟩
        · rintro (h | ⟨c, hc, hcv, hck'⟩)
          · exact Or.inl (List.mem_append_left _ h)
          · rcases List.mem_cons.mp hc with rfl | hc
            · left
              apply List.mem_append_right
              rw [← hck', hck]
              exact List.mem_singleton_self _
            · exact Or.inr ⟨c, hc, hcv, hck'⟩

theorem copy_foldl_visible (f : Command → MyCommand) (subs : List Command) :
    ∀ my : MyCommand,
      subs.foldl
          (fun my sub =>
            if sub.Hidden then my else { my with Subcommands := my.Subcommands ++ [f sub] }) my =
        { my with
          Subcommands := my.Subcommands ++ (subs.filter (fun s => !s.Hidden)).map f } := by
  induction subs with
  | nil => intro my; cases my; simp
  | cons s subs ih =>
    intro my
    rw [List.foldl_cons, ih]
    cases my
    by_cases hh : s.Hidden = true
    · simp [hh, List.filter_cons]
    · simp [hh, List.filter_cons]

theorem CopyCommand_subcommands (com1 : Command) : (CopyCommand com1).Subcommands = [] := rfl

theorem copySubSubcommands_eq (sub : Command) :
    copySubSubcommands sub =
      { CopyCommand sub with
        Subcommands := (sub.Subcommands.filter (fun d => !d.Hidden)).map CopyCommand } := by
  rw [copySubSubcommands, copy_foldl_visible CopyCommand]
  simp [CopyCommand_subcommands]

theorem copySubcommands_eq (com : Command) :
    copySubcommands com =
      { CopyCommand com with
        Subcommands :=
          (com.Subcommands.filter (fun s => !s.Hidden)).map copySubSubcommands } := by
  rw [copySubcommands, copy_foldl_visible copySubSubcommands]
  simp [CopyCommand_subcommands]

/-- C26: in the listing that `execMain` builds, the entries under a key are exactly the
copies of the commands of `getCommands` that are not hidden and have this category (`Other`
standing for `""`), one entry for each in order; every such command's key is in the listing,
no key occurs twice and none is `""`; the copy of a command holds the copies of its
subcommands that are not hidden, each with the copies of its own subcommands that are not
hidden, and nothing below. -/
theorem execMain_listing_hidden (env : Collaborators)
    (appRun : List Command → Option String) :
    (∀ p ∈ (execMain env appRun).allCommands,
        p.1 ≠ "" ∧
        p.2 = ((getCommands env).1.filter
          (fun c => !c.Hidden && decide (categoryKey c = p.1))).map copySubcommands) ∧
      ((execMain env appRun).allCommands.map Prod.fst).Nodup ∧
      (∀ c ∈ (getCommands env).1, c.Hidden = false →
        categoryKey c ∈ (execMain env appRun).allCommands.map Prod.fst) ∧
      (∀ c : Command, copySubcommands c =
        { CopyCommand c with
          Subcommands :=
            (c.Subcommands.filter (fun s => !s.Hidden)).map copySubSubcommands }) ∧
      (∀ s : Command, copySubSubcommands s =
        { CopyCommand s with
          Subcommands := (s.Subcommands.filter (fun d => !d.Hidden)).map CopyCommand }) ∧
      (∀ d : Command, (CopyCommand d).Subcommands = []) := by
  obtain ⟨hk1, _, _⟩ := listCommands_foldl (getCommands env).1 [] (by simp)
  obtain ⟨hnd, hkeys⟩ := listCommands_keys (getCommands env).1 [] (by simp)
  have hlook := listCommands_lookup (getCommands env).1 []
  refine ⟨?_, hnd, ?_, copySubcommands_eq, copySubSubcommands_eq, CopyCommand_subcommands⟩
  · intro p hp
    refine ⟨hk1 p hp, ?_⟩
    have h1 := mapLookup_of_mem _ hnd p hp
    have h2 := hlook p.1
    rw [h1]
    simpa [mapLookup] using h2
  · intro c hc hv
    exact (hkeys (categoryKey c)).mpr (Or.inr ⟨c, hc, hv, rfl⟩)

/-- Witness of C26: with the bare collaborators the listing has the keys
`Command Namespaces` and `Other`; the hidden built-ins, `setup` among them, are not listed. -/
theorem execMain_listing_hidden_witness :
    (execMain bareCollaborators (fun _ => none)).allCommands.map
        (fun p => (p.1, p.2.map (fun m => m.Name))) =
      [("Command Namespaces", ["rt", "mc", "ds", "pl", "plugin", "config"]),
       ("Other", ["completion", "options", "login", "access-token-create"])] ∧
    ∀ p ∈ (execMain bareCollaborators (fun _ => none)).allCommands,
      p.1 ≠ "" ∧
      p.2 = ((getCommands bareCollaborators).1.filter
        (fun c => !c.Hidden && decide (categoryKey c = p.1))).map copySubcommands :=
  ⟨by decide, (execMain_listing_hidden bareCollaborators (fun _ => none)).1⟩

/-! ## The diagnostic of the alias validator -/

theorem validateAliases_first_repeat (cn sn : String) (apre : List String) (a : String)
    (apost : List String) :
    ∀ seen : List String, apre.Nodup → (∀ x ∈ apre, x ∉ seen) → (a ∈ apre ∨ a ∈ seen) →
      validateAliases cn sn (apre ++ a :: apost) seen =
        .error (duplicateAliasMessage a cn sn) := by
  induction apre with
  | nil =>
    intro seen _ _ ha
    have hs : a ∈ seen := by simpa using ha
    rw [List.nil_append, validateAliases, if_pos hs]
    rfl
  | cons x apre ih =>
    intro seen hnd hdis ha
    have hx : x ∉ seen := hdis x (List.mem_cons_self _ _)
    rw [List.cons_append, validateAliases, if_neg hx]
    apply ih (x :: seen) (List.nodup_cons.mp hnd).2
    · intro y hy hys
      rcases List.mem_cons.mp hys with rfl | hys
      · exact (List.nodup_cons.mp hnd).1 hy
      · exact hdis y (List.mem_cons_of_mem _ hy) hys
    · rcases ha with ha | ha
      · rcases List.mem_cons.mp ha with rfl | ha
        · exact Or.inr (List.mem_cons_self _ _)
        · exact Or.inl ha
      · exact Or.inr (List.mem_cons_of_mem _ ha)

theorem validateSubcommands_first_repeat (cn : String) (spre : List Command) (s : Command)
    (spost : List Command) (apre : List String) (a : String) (apost : List String)
    (hs : s.Aliases = apre ++ a :: apost) :
    ∀ seen : List String, (spre.flatMap Command.Aliases ++ apre).Nodup →
      (∀ x ∈ spre.flatMap Command.Aliases ++ apre, x ∉ seen) →
      (a ∈ spre.flatMap Command.Aliases ++ apre ∨ a ∈ seen) →
      validateSubcommands cn (spre ++ s :: spost) seen =
        .error (duplicateAliasMessage a cn s.Name) := by
  induction spre with
  | nil =>
    intro seen hnd hdis ha
    rw [List.nil_append, validateSubcommands, hs,
      validateAliases_first_repeat cn s.Name apre a apost seen (by simpa using hnd)
        (by simpa using hdis) (by simpa using ha)]
  | cons t spre ih =>
    intro seen hnd hdis ha
    rw [List.flatMap_cons, List.append_assoc] at hnd hdis ha
    have hnd' := List.nodup_append.mp hnd
    have hok : validateAliases cn t.Name t.Aliases seen = .ok (t.Aliases.reverse ++ seen) :=
      (validateAliases_ok cn t.Name t.Aliases seen _).mpr
        ⟨rfl, hnd'.1, fun x hx => hdis x (List.mem_append_left _ hx)⟩
    rw [List.cons_append, validateSubcommands, hok]
    apply ih (t.Aliases.reverse ++ seen) hnd'.2.1
    · intro x hx hxs
      rcases List.mem_append.mp hxs with h | h
      · exact hnd'.2.2 (List.mem_reverse.mp h) hx
      · exact hdis x (List.mem_append_right _ hx) h
    · rcases ha with ha | ha
      · rcases List.mem_append.mp ha with h | h
        · exact Or.inr (List.mem_append_left _ (List.mem_reverse.mpr h))
        · exact Or.inl h
      · exact Or.inr (List.mem_append_right _ ha)

theorem validateAliasesDuplication_first_repeat (pre : List Command) (c : Command)
    (post : List Command) (e : String)
    (hpre : ∀ c' ∈ pre, (c'.Subcommands.flatMap Command.Aliases).Nodup)
    (hc : validateSubcommands c.Name c.Subcommands [] = .error e) :
    validateAliasesDuplication (pre ++ c :: post) = .error e := by
  induction pre with
  | nil => rw [List.nil_append, validateAliasesDuplication, hc]
  | cons p pre ih =>
    have hp : validateSubcommands p.Name p.Subcommands [] = .ok () :=
      (validateSubcommands_ok p.Name p.Subcommands []).mpr
        ⟨hpre p (List.mem_cons_self _ _), by simp⟩
    rw [List.cons_append, validateAliasesDuplication, hp]
    exact ih (fun c' hc' => hpre c' (List.mem_cons_of_mem _ hc'))

/-- A list with a repeated value splits at the first value that occurred before. -/
theorem exists_first_repeat (l : List String) (h : ¬ l.Nodup) :
    ∃ l1 a l2, l = l1 ++ a :: l2 ∧ l1.Nodup ∧ a ∈ l1 := by
  induction l using List.reverseRecOn with
  | nil => exact absurd List.nodup_nil h
  | append_singleton l a ih =>
    by_cases hl : l.Nodup
    · refine ⟨l, a, [], rfl, hl, ?_⟩
      by_contra ha
      apply h
      rw [List.nodup_append]
      exact ⟨hl, List.nodup_singleton a,
        fun x hx hxa => ha (List.mem_singleton.mp hxa ▸ hx)⟩
    · obtain ⟨l1, b, l2, h1, h2, h3⟩ := ih hl
      exact ⟨l1, b, l2 ++ [a], by rw [h1]; simp, h2, h3⟩

/-- A position in the aliases of a list of subcommands, written one after the other, lies in
the aliases of one of them. -/
theorem flatMap_aliases_split (subs : List Command) :
    ∀ (l1 : List String) (a : String) (l2 : List String),
      subs.flatMap Command.Aliases = l1 ++ a :: l2 →
      ∃ spre s spost apre apost, subs = spre ++ s :: spost ∧
        s.Aliases = apre ++ a :: apost ∧ l1 = spre.flatMap Command.Aliases ++ apre := by
  induction subs with
  | nil => intro l1 a l2 h; simp at h
  | cons t subs ih =>
    intro l1 a l2 h
    rw [List.flatMap_cons] at h
    rcases List.append_eq_append_iff.mp h with ⟨m, h1, h2⟩ | ⟨m, h1, h2⟩
    · obtain ⟨spre, s, spost, apre, apost, e1, e2, e3⟩ := ih m a l2 h2
      refine ⟨t :: spre, s, spost, apre, apost, by rw [e1]; rfl, e2, ?_⟩
      rw [h1, List.flatMap_cons, List.append_assoc, ← e3]
    · cases m with
      | nil =>
        rw [List.nil_append] at h2
        rw [List.append_nil] at h1
        obtain ⟨spre, s, spost, apre, apost, e1, e2, e3⟩ := ih [] a l2 h2.symm
        refine ⟨t :: spre, s, spost, apre, apost, by rw [e1]; rfl, e2, ?_⟩
        rw [List.flatMap_cons, List.append_assoc, ← e3, List.append_nil, h1]
      | cons b m =>
        rw [List.cons_append] at h2
        have hab : a = b := (List.cons.inj h2).1
        exact ⟨[], t, subs, l1, m, rfl, by rw [h1, hab], by simp⟩

/-- C27: the validator fails exactly when, under some top-level command, the alias lists of
the direct subcommands written one after the other hold a value twice (one subcommand that
lists an alias twice is enough); the diagnostic then names the first alias, in the order of
the traversal, that occurred before under the same top-level command, with that command and
the subcommand in whose list the repeat stands. -/
theorem validateAliasesDuplication_diagnostic (cmds : List Command) :
    ((∃ e, validateAliasesDuplication cmds = .error e) ↔
        ∃ c ∈ cmds, ¬ (c.Subcommands.flatMap Command.Aliases).Nodup) ∧
      (∀ (pre : List Command) (c : Command) (post spre : List Command) (s : Command)
          (spost : List Command) (apre : List String) (a : String) (apost : List String),
        cmds = pre ++ c :: post →
        (∀ c' ∈ pre, (c'.Subcommands.flatMap Command.Aliases).Nodup) →
        c.Subcommands = spre ++ s :: spost →
        s.Aliases = apre ++ a :: apost →
        (spre.flatMap Command.Aliases ++ apre).Nodup →
        a ∈ spre.flatMap Command.Aliases ++ apre →
        validateAliasesDuplication cmds = .error (duplicateAliasMessage a c.Name s.Name)) ∧
      ((∃ e, validateAliasesDuplication cmds = .error e) →
        ∃ (pre : List Command) (c : Command) (post spre : List Command) (s : Command)
          (spost : List Command) (apre : List String) (a : String) (apost : List String),
          cmds = pre ++ c :: post ∧
          (∀ c' ∈ pre, (c'.Subcommands.flatMap Command.Aliases).Nodup) ∧
          c.Subcommands = spre ++ s :: spost ∧
          s.Aliases = apre ++ a :: apost ∧
          (spre.flatMap Command.Aliases ++ apre).Nodup ∧
          a ∈ spre.flatMap Command.Aliases ++ apre) := by
  have hiff : (∃ e, validateAliasesDuplication cmds = .error e) ↔
      ∃ c ∈ cmds, ¬ (c.Subcommands.flatMap Command.Aliases).Nodup := by
    constructor
    · rintro ⟨e, he⟩
      by_contra hno
      have hall : ∀ c ∈ cmds, (c.Subcommands.flatMap Command.Aliases).Nodup := by
        intro c hc
        by_contra hn
        exact hno ⟨c, hc, hn⟩
      rw [(validateAliasesDuplication_ok cmds).mpr hall] at he
      cases he
    · rintro ⟨c, hc, hn⟩
      cases hv : validateAliasesDuplication cmds with
      | error e => exact ⟨e, rfl⟩
      | ok u => exact absurd ((validateAliasesDuplication_ok cmds).mp hv c hc) hn
  refine ⟨hiff, ?_, ?_⟩
  · intro pre c post spre s spost apre a apost hcmds hpre hsubs hal hnd ha
    rw [hcmds]
    apply validateAliasesDuplication_first_repeat pre c post _ hpre
    rw [hsubs]
    exact validateSubcommands_first_repeat c.Name spre s spost apre a apost hal [] hnd
      (by simp) (Or.inl ha)
  · intro hfail
    obtain ⟨pre, c, post, hl, hpre, hc⟩ :=
      exists_first_split (fun c => ¬ (c.Subcommands.flatMap Command.Aliases).Nodup) cmds
        (hiff.mp hfail)
    obtain ⟨l1, a, l2, h1, h2, h3⟩ := exists_first_repeat _ hc
    obtain ⟨spre, s, spost, apre, apost, e1, e2, e3⟩ :=
      flatMap_aliases_split c.Subcommands l1 a l2 h1
    refine ⟨pre, c, post, spre, s, spost, apre, a, apost, hl, ?_, e1, e2, e3 ▸ h2, e3 ▸ h3⟩
    intro c' hc'
    by_contra hn
    exact hpre c' hc' hn

/-- Witness of C27: under `rt` the subcommand `upload` lists the alias `u` twice; no two
siblings share an alias, the validator fails and names `u`, `rt` and `upload`. -/
theorem validateAliasesDuplication_diagnostic_witness :
    validateAliasesDuplication
        [mkCommand "config" [] [mkCommand "add" ["a"] []],
         mkCommand "rt" [] [mkCommand "ping" ["p"] [], mkCommand "upload" ["u", "up", "u"] []]] =
      .error "Duplicate Alias \x27u\x27 Found on rt upload command." :=
  ((validateAliasesDuplication_diagnostic
      [mkCommand "config" [] [mkCommand "add" ["a"] []],
       mkCommand "rt" [] [mkCommand "ping" ["p"] [],
         mkCommand "upload" ["u", "up", "u"] []]]).2.1
    [mkCommand "config" [] [mkCommand "add" ["a"] []]]
    (mkCommand "rt" [] [mkCommand "ping" ["p"] [], mkCommand "upload" ["u", "up", "u"] []]) []
    [mkCommand "ping" ["p"] []] (mkCommand "upload" ["u", "up", "u"] []) []
    ["u", "up"] "u" [] rfl (by decide) rfl rfl (by decide) (by decide)).trans
    (congrArg Except.error (by decide))

/-! ## Order of the registry -/

/-- C28: when several top-level commands have a direct subcommand invoked by the token, the
result is the suggestion for the first of them in registry order (the scan of its
subcommands stops at the first match, which is the token); exchanging two such commands
at the head of the registry exchanges the result. -/
theorem searchSimilarCmds_first_in_order (pre : List Command) (c : Command)
    (post : List Command) (tok : String)
    (hpre : ∀ c' ∈ pre, ∀ s ∈ c'.Subcommands, tok ∉ s.Names)
    (hc : ∃ s ∈ c.Subcommands, tok ∈ s.Names) :
    searchSimilarCmds (pre ++ c :: post) tok = [c.Name ++ " " ++ tok] ∧
      exactSubcommand tok c.Subcommands = some tok ∧
      ∀ c' : Command, (∃ s ∈ c'.Subcommands, tok ∈ s.Names) →
        searchSimilarCmds (c :: c' :: post) tok = [c.Name ++ " " ++ tok] ∧
          searchSimilarCmds (c' :: c :: post) tok = [c'.Name ++ " " ++ tok] := by
  refine ⟨searchLoop_exact tok pre c post 2 [] hpre hc,
    exactSubcommand_of_mem tok c.Subcommands hc, ?_⟩
  intro c' hc'
  exact ⟨searchLoop_exact tok [] c (c' :: post) 2 [] (by simp) hc,
    searchLoop_exact tok [] c' (c :: post) 2 [] (by simp) hc'⟩

/-- Witness of C28: `rt` and `ds` both have `ping`; `rt` first gives `rt ping`, `ds` first
gives `ds ping`. -/
theorem searchSimilarCmds_first_in_order_witness :
    searchSimilarCmds
        [mkCommand "rt" [] [mkCommand "upload" ["u"] [], mkCommand "ping" ["p"] []],
         mkCommand "ds" [] [mkCommand "ping" [] []]] "ping" = ["rt ping"] ∧
      searchSimilarCmds
        [mkCommand "ds" [] [mkCommand "ping" [] []],
         mkCommand "rt" [] [mkCommand "upload" ["u"] [], mkCommand "ping" ["p"] []]] "ping" =
        ["ds ping"] :=
  have h := (searchSimilarCmds_first_in_order []
    (mkCommand "rt" [] [mkCommand "upload" ["u"] [], mkCommand "ping" ["p"] []]) [] "ping"
    (by simp) ⟨mkCommand "ping" ["p"] [], by simp [mkCommand], by decide⟩).2.2
    (mkCommand "ds" [] [mkCommand "ping" [] []])
    ⟨mkCommand "ping" [] [], by simp [mkCommand], by decide⟩
  ⟨h.1.trans (by decide), h.2.trans (by decide)⟩

/-! ## The edit distance is at most the longer length -/

theorem rowStep_length (c : Char) :
    ∀ (suf : List Char) (xs : List Nat) (prev : Nat), xs.length = suf.length + 1 →
      (rowStep c suf xs prev).length = suf.length + 1 := by
  intro suf
  induction suf with
  | nil =>
    intro xs prev hlen
    match xs, hlen with
    | [d], _ => simp [rowStep]
  | cons s suf ih =>
    intro xs prev hlen
    match xs, hlen with
    | d :: u :: rest, hlen =>
      have hl : (u :: rest).length = suf.length + 1 := by simpa using hlen
      rw [rowStep, List.length_cons, ih (u :: rest) _ hl, List.length_cons]

theorem rowStep_le (c : Char) (i : Nat) :
    ∀ (suf : List Char) (xs : List Nat) (prev p : Nat),
      xs.length = suf.length + 1 →
      (∀ k v, xs[k]? = some v → v ≤ max i (p + k)) →
      prev ≤ max (i + 1) p →
      ∀ k v, (rowStep c suf xs prev)[k]? = some v → v ≤ max (i + 1) (p + k) := by
  intro suf
  induction suf with
  | nil =>
    intro xs prev p hlen _ hprev k v hk
    match xs, hlen with
    | [d], _ =>
      cases k with
      | zero =>
        have : prev = v := by simpa [rowStep] using hk
        rw [← this]
        simpa using hprev
      | succ k => simp [rowStep] at hk
  | cons s suf ih =>
    intro xs prev p hlen hxs hprev k v hk
    match xs, hlen with
    | d :: u :: rest, hlen =>
      have hl : (u :: rest).length = suf.length + 1 := by simpa using hlen
      have hd : d ≤ max i p := by
        have := hxs 0 d (by simp)
        simpa using this
      have hcur : (if c ≠ s then min (min (d + 1) (prev + 1)) (u + 1) else d) ≤
          max (i + 1) (p + 1) := by
        by_cases hcs : c = s
        · rw [if_neg (by simpa using hcs)]
          omega
        · rw [if_pos hcs]
          omega
      have hx : ∀ k v, (u :: rest)[k]? = some v → v ≤ max i (p + 1 + k) := by
        intro k v hkv
        have := hxs (k + 1) v (by simpa using hkv)
        omega
      rw [rowStep] at hk
      cases k with
      | zero =>
        have : prev = v := by simpa using hk
        rw [← this]
        simpa using hprev
      | succ k =>
        rw [List.getElem?_cons_succ] at hk
        have := ih (u :: rest) _ (p + 1) hl hx hcur k v hk
        omega

theorem rowLoop_le (s1 : List Char) :
    ∀ (s2 : List Char) (i : Nat) (x : List Nat),
      x.length = s1.length + 1 →
      (∀ k v, x[k]? = some v → v ≤ max i k) →
      ∀ k v, (rowLoop s1 s2 (i + 1) x)[k]? = some v → v ≤ max (i + s2.length) k := by
  intro s2
  induction s2 with
  | nil =>
    intro i x _ hx k v hk
    have := hx k v (by simpa [rowLoop] using hk)
    simpa using this
  | cons c s2 ih =>
    intro i x hlen hx k v hk
    rw [rowLoop] at hk
    have hstep : ∀ k v, (rowStep c s1 x (i + 1))[k]? = some v → v ≤ max (i + 1) k := by
      intro k v hkv
      have := rowStep_le c i s1 x (i + 1) 0 hlen (by simpa using hx) (by omega) k v hkv
      simpa using this
    have := ih (i + 1) (rowStep c s1 x (i + 1)) (rowStep_length c s1 x (i + 1) hlen) hstep k v hk
    rw [List.length_cons]
    omega

theorem rowLoop_last_le (s1 s2 : List Char) :
    (rowLoop s1 s2 1 (List.range (s1.length + 1))).getD s1.length 0 ≤
      max s2.length s1.length := by
  have h := rowLoop_le s1 s2 0 (List.range (s1.length + 1)) (by simp) (by
    intro k v hk
    rw [List.getElem?_eq_some_iff] at hk
    obtain ⟨_, hk2⟩ := hk
    simp at hk2
    omega)
  rw [List.getD_eq_getElem?_getD]
  cases hv : (rowLoop s1 s2 (0 + 1) (List.range (s1.length + 1)))[s1.length]? with
  | none => simp
  | some v =>
    have := h s1.length v hv
    simpa using this

theorem ComputeDistance_le (a b : String) :
    ComputeDistance a b ≤ max a.length b.length := by
  unfold ComputeDistance
  have ha : a.length = a.data.length := rfl
  have hb : b.length = b.data.length := rfl
  rw [ha, hb]
  by_cases h1 : a.data.length = 0
  · rw [if_pos h1]; omega
  · rw [if_neg h1]
    by_cases h2 : b.data.length = 0
    · rw [if_pos h2]; omega
    · rw [if_neg h2]
      by_cases h3 : a = b
      · rw [if_pos h3]; omega
      · rw [if_neg h3]
        by_cases hgt : a.data.length > b.data.length
        · simp only [hgt, if_true]
          have := rowLoop_last_le b.data a.data
          omega
        · simp only [hgt, if_false]
          have := rowLoop_last_le a.data b.data
          omega

/-- C29: for a registry that has a top-level command with an invocation name of at most 2
characters, and a token of at most 2 characters, the result is not empty: that name is
within distance 2. -/
theorem searchSimilarCmds_short_token (cmds : List Command) (tok : String)
    (h : ∃ c ∈ cmds, ∃ n ∈ c.Names, n.length ≤ 2) (ht : tok.length ≤ 2) :
    searchSimilarCmds cmds tok ≠ [] := by
  by_cases hex : ∃ c ∈ cmds, ∃ sub ∈ c.Subcommands, tok ∈ sub.Names
  · obtain ⟨c, _, _, hres⟩ := searchSimilarCmds_exact_single_aux cmds tok hex
    rw [hres]
    simp
  · have hsub : ∀ c ∈ cmds, ∀ sub ∈ c.Subcommands, tok ∉ sub.Names :=
      fun c hc sub hsb hmem => hex ⟨c, hc, sub, hsb, hmem⟩
    obtain ⟨c, hc, n, hn, hlen⟩ := h
    have hp : (c, n) ∈ candidates cmds := (mem_candidates cmds (c, n)).mpr ⟨hc, hn⟩
    have hd : ComputeDistance n tok ≤ 2 := by
      have := ComputeDistance_le n tok
      omega
    have hatt : ∃ q ∈ candidates cmds, ComputeDistance q.2 tok = finalDistance cmds tok := by
      rcases foldl_min_attained tok (candidates cmds) 2 with h2 | hq
      · have hle := foldl_min_le_mem tok (candidates cmds) 2 (c, n) hp
        refine ⟨(c, n), hp, ?_⟩
        show ComputeDistance n tok = finalDistance cmds tok
        unfold finalDistance
        rw [h2] at hle ⊢
        exact le_antisymm hd hle
      · exact hq
    obtain ⟨q, hq, hqd⟩ := hatt
    rw [searchSimilarCmds_eq_filter cmds tok hsub]
    intro hnil
    have hf := List.map_eq_nil_iff.mp hnil
    have hmem : q ∈ (candidates cmds).filter
        (fun p => ComputeDistance p.2 tok = finalDistance cmds tok) :=
      List.mem_filter.mpr ⟨hq, by simpa using hqd⟩
    rw [hf] at hmem
    simp at hmem

/-- Witness of C29: on the scenario registry, with the aliases `rt` and `c`, the token `xx`
gives the two suggestions `rt` and `c`. -/
theorem searchSimilarCmds_short_token_witness :
    searchSimilarCmds scenarioRegistry "xx" ≠ [] ∧
      searchSimilarCmds scenarioRegistry "xx" = ["rt", "c"] :=
  ⟨searchSimilarCmds_short_token scenarioRegistry "xx" (by decide) (by decide), by decide⟩

end JfrogCli
